import Mathlib

/-!
Verification of the filekv filesystem-backed versioned key-value store.

The Go engine is shallowly embedded: the on-disk state is explicit
(`Store`, `HistDir`), every operation of the public API is a pure function
on that state, and the injected monotonic clock is an explicit argument.
File contents are Lean strings (Go compares values with `bytes.Equal`,
which is string equality here).  Error values are a small inductive type:
Go distinguishes errors by value identity, so message texts are abbreviated
where convenient.  Multi-error joins (`errors.Join`) can never arise in the
model because modelled filesystem primitives do not fail, so they are not
represented.
-/

namespace FileKV

/-- Byte strings are modelled as Lean strings. -/
abbrev Value := String

/-- Splits at every occurrence of the separator, as Go `strings.Split`
does for a one-character separator; in particular the empty input yields
one empty field. -/
def listSplit (sep : Char) : List Char → List (List Char)
  | [] => [[]]
  | c :: cs =>
    if c = sep then [] :: listSplit sep cs
    else
      match listSplit sep cs with
      | [] => [[c]]
      | g :: gs => (c :: g) :: gs

/-- Models Go `strings.Split` with a one-character separator. -/
def strSplitOn (s : String) (sep : Char) : List String :=
  (listSplit sep s.data).map (fun cs => ⟨cs⟩)

/-- Models Go `strings.HasPrefix`. -/
def strHasPre (s pre : String) : Bool :=
  pre.data.isPrefixOf s.data

/-- Models Go `strings.HasSuffix`. -/
def strHasSuf (s suf : String) : Bool :=
  suf.data.reverse.isPrefixOf s.data.reverse

/-- Models Go `strings.Contains` with a one-character needle. -/
def strContainsChar (s : String) (c : Char) : Bool :=
  s.data.contains c

/-- Models Go `strings.TrimSuffix`; callers only use it when the suffix is
known to be present. -/
def strTrimSuf (s suf : String) : String :=
  ⟨s.data.take (s.data.length - suf.data.length)⟩

/-- Lexicographic strict order on character lists, by code point; this is
Go byte-wise string comparison on UTF-8 data. -/
def charsLt : List Char → List Char → Bool
  | [], [] => false
  | [], _ :: _ => true
  | _ :: _, [] => false
  | a :: as, b :: bs => if a < b then true else if b < a then false else charsLt as bs

/-- Go `a < b` on strings. -/
def strLt (a b : String) : Bool := charsLt a.data b.data

/-- Go `a <= b` on strings (the negation of the reverse strict order). -/
def strLe (a b : String) : Bool := !(strLt b a)

/-- Decimal digit character (only ever applied to values below ten). -/
def digitChar (n : Nat) : Char :=
  if n = 0 then '0' else if n = 1 then '1' else if n = 2 then '2'
  else if n = 3 then '3' else if n = 4 then '4' else if n = 5 then '5'
  else if n = 6 then '6' else if n = 7 then '7' else if n = 8 then '8' else '9'

/-- Fuelled digit expansion of a natural number, most significant first. -/
def natToCharsAux : Nat → Nat → List Char → List Char
  | 0, _, acc => acc
  | fuel + 1, n, acc =>
    if n < 10 then digitChar n :: acc
    else natToCharsAux fuel (n / 10) (digitChar (n % 10) :: acc)

/-- Decimal digits of a natural number. -/
def natToChars (n : Nat) : List Char := natToCharsAux (n + 1) n []

/-- Models `strconv.FormatInt(i, 10)`. -/
def intToStr (i : Int) : String :=
  if i < 0 then ⟨'-' :: natToChars i.natAbs⟩ else ⟨natToChars i.natAbs⟩

/-- Numeric value of a digit character. -/
def charVal (c : Char) : Nat := c.toNat - 48

/-- Value of a string of decimal digits, most significant first. -/
def digitsToNat (cs : List Char) : Nat := cs.foldl (fun acc c => acc * 10 + charVal c) 0

/-- Models `strconv.ParseInt(s, 10, 64)`: optional sign, decimal digits,
and the int64 range check (out-of-range input is an error, hence `none`). -/
def goParseInt (s : String) : Option Int :=
  let p : Bool × List Char :=
    match s.data with
    | '+' :: rest => (false, rest)
    | '-' :: rest => (true, rest)
    | cs => (false, cs)
  if p.2 = [] ∨ ¬ p.2.all Char.isDigit then none
  else
    let n : Int := (digitsToNat p.2 : Int)
    if p.1 then
      if n ≤ 2 ^ 63 then some (-n) else none
    else
      if n ≤ 2 ^ 63 - 1 then some n else none

/-- Association-list lookup (first match), modelling both Go maps and
file lookup by name inside one directory. -/
def lookupF {α : Type} : List (String × α) → String → Option α
  | [], _ => none
  | (k, v) :: rest, key => if k = key then some v else lookupF rest key

/-- Association-list update: overwrite the first binding of the key, or
append a new one.  Models Go map assignment and file overwrite/create. -/
def setF {α : Type} : List (String × α) → String → α → List (String × α)
  | [], key, v => [(key, v)]
  | (k, w) :: rest, key, v =>
    if k = key then (key, v) :: rest else (k, w) :: setF rest key v

/-- Association-list removal of every binding of the key.  Models file
removal. -/
def removeF {α : Type} (m : List (String × α)) (key : String) : List (String × α) :=
  m.filter (fun p => p.1 != key)

/-- Go error values used by the engine.  `pathErr` stands for a syscall
not-exist error (a `*PathError`), which `os.IsNotExist` recognises;
`wrapErr` is the engine's `errorWrap`, which `os.IsNotExist` does NOT
unwrap, exactly as in the source. -/
inductive GoErr where
  | newErr (msg : String)
  | notExistErr
  | pathErr (op : String)
  | wrapErr (msg : String) (inner : GoErr)
deriving DecidableEq

/-- Models `os.IsNotExist`: true only for the bare `os.ErrNotExist` and for
syscall path errors, never for the engine's own wrapper. -/
def isNotExist : GoErr → Bool
  | .notExistErr => true
  | .pathErr _ => true
  | _ => false

/-- A key part Go rejects: non-empty and starting with `.` or `p_` or
ending with `.h`. -/
def badPart (part : String) : Bool :=
  part != "" && (strHasPre part "." || strHasPre part "p_" || strHasSuf part ".h")

/-- Models `FileKVStore.validateKey`. -/
def validateKey (key : String) : Option GoErr :=
  if key = "" then some (.newErr "invalid key: must not empty")
  else if strHasPre key "/" || strContainsChar key '\\' then
    some (.newErr "invalid key: must not start with / or contain a backslash")
  else
    match (strSplitOn key '/').find? badPart with
    | some part =>
      some (.newErr ("invalid key part: " ++ part ++ " cannot start with . or p_ or end with .h"))
    | none => none

/-- One history directory: the files directly in it (default location) and
its immediate subdirectories with their files.  Page directories are the
subdirectories whose name starts with `p_`. -/
structure HistDir where
  files : List (String × Value)
  subdirs : List (String × List (String × Value))
deriving DecidableEq

def emptyHistDir : HistDir := ⟨[], []⟩

/-- The whole store: live files by root-relative key path, and one history
directory per key (present in the list iff the directory exists). -/
structure Store where
  live : List (String × Value)
  hist : List (String × HistDir)
deriving DecidableEq

/-- One record produced by the history traversal: location-qualified path,
bare version name, and whether a sibling `.meta` file was seen. -/
structure HEntry where
  path : String
  version : String
  hasMeta : Bool
deriving DecidableEq

/-- Names of the `.meta` files of one directory, with the suffix stripped. -/
def metaNames (files : List (String × Value)) : List String :=
  (files.filter (fun f => strHasSuf f.1 ".meta")).map (fun f => strTrimSuf f.1 ".meta")

/-- A directory entry counted as a snapshot: not hidden, not a meta file. -/
def isSnapName (n : String) : Bool := !strHasPre n "." && !strHasSuf n ".meta"

/-- The snapshot entries contributed by one directory level, with `pre`
(empty for the default location, the page name inside a page). -/
def dirEntries (pre : String) (files : List (String × Value)) : List HEntry :=
  let metas := metaNames files
  (files.filter (fun f => isSnapName f.1)).map (fun f =>
    { path := if pre = "" then f.1 else pre ++ "/" ++ f.1
      version := f.1
      hasMeta := metas.contains f.1 })

/-- Models `traverseDir` over a history directory: page subdirectories are
recursed into first (one level only), then the directory's own files;
hidden files are skipped and `.meta` files only feed the `hasMeta` flags. -/
def histEntries (d : HistDir) : List HEntry :=
  ((d.subdirs.filter (fun s => strHasPre s.1 "p_")).map (fun s => dirEntries s.1 s.2)).flatten
    ++ dirEntries "" d.files

/-- Resolves a one- or two-component relative path inside a history
directory, as `filepath.Join(historyDir, path)` does on disk. -/
def readFileAt (d : HistDir) (path : String) : Option Value :=
  match strSplitOn path '/' with
  | [f] => lookupF d.files f
  | [p, f] =>
    match lookupF d.subdirs p with
    | some files => lookupF files f
    | none => none
  | _ => none

/-- Removes the file at a one- or two-component relative path. -/
def removeFileAt (d : HistDir) (path : String) : HistDir :=
  match strSplitOn path '/' with
  | [f] => { d with files := removeF d.files f }
  | [p, f] =>
    match lookupF d.subdirs p with
    | some files => { d with subdirs := setF d.subdirs p (removeF files f) }
    | none => d
  | _ => d

/-- Writes the file at a one- or two-component relative path, creating the
page directory when needed (the `MkdirAll` + retry of `writeProperties`). -/
def writeFileAt (d : HistDir) (path : String) (v : Value) : HistDir :=
  match strSplitOn path '/' with
  | [f] => { d with files := setF d.files f v }
  | [p, f] =>
    let files := (lookupF d.subdirs p).getD []
    { d with subdirs := setF d.subdirs p (setF files f v) }
  | _ => d

/-- Characters `unicode.IsSpace` accepts among those that fit in Latin-1
plus the ASCII controls Go trims (`strings.TrimSpace`). -/
def isGoSpace (c : Char) : Bool :=
  c = ' ' || c = '\t' || c = '\n' || c = '\x0B' || c = '\x0C' || c = '\r' ||
    c = '\u0085' || c = '\u00A0'

/-- Models `strings.TrimSpace` on the character list of a string. -/
def goTrim (cs : List Char) : List Char :=
  ((cs.dropWhile isGoSpace).reverse.dropWhile isGoSpace).reverse

/-- Drops one trailing carriage return, as `bufio.ScanLines` does. -/
def dropCR (cs : List Char) : List Char :=
  if cs.getLast? = some '\r' then cs.dropLast else cs

/-- Models `bufio.Scanner` line splitting: newline-separated tokens, a
final trailing newline produces no empty last token, and each token loses
one trailing carriage return. -/
def goLines (cs : List Char) : List (List Char) :=
  if cs = [] then []
  else
    let gs := (listSplit '\n' cs).map dropCR
    if cs.getLast? = some '\n' then gs.dropLast else gs

/-- One line of `readProperties`: split at the first `=` when its index is
positive, trim both sides, assign into the map; otherwise skip the line. -/
def parsePropLine (m : List (String × String)) (line : List Char) : List (String × String) :=
  let k := line.takeWhile (fun c => c != '=')
  if k.length = 0 || k.length = line.length then m
  else setF m ⟨goTrim k⟩ ⟨goTrim (line.drop (k.length + 1))⟩

/-- Models `FileKVStore.readProperties` applied to file contents. -/
def propsDecode (content : Value) : List (String × String) :=
  (goLines content.data).foldl parsePropLine []

/-- Models `readProperties` including the absent-file case (empty map,
no error). -/
def readProps (content : Option Value) : List (String × String) :=
  match content with
  | none => []
  | some c => propsDecode c

/-- Models the `writeProperties` serialisation; the Go map iteration order
is unspecified, the model serialises in list order. -/
def propsEncode : List (String × String) → Value
  | [] => ""
  | (k, v) :: rest => k ++ "=" ++ v ++ "\n" ++ propsEncode rest

/-- Decidable equality for `Except` results, so that closed facts about
operation results can be settled by `decide`. -/
instance {A B : Type} [DecidableEq A] [DecidableEq B] : DecidableEq (Except A B) := by
  intro x y
  cases x <;> cases y
  case error.error a b =>
    exact decidable_of_iff (a = b) (by constructor <;> (intro h; cases h; rfl))
  case error.ok a b => exact isFalse (by intro h; cases h)
  case ok.error a b => exact isFalse (by intro h; cases h)
  case ok.ok a b =>
    exact decidable_of_iff (a = b) (by constructor <;> (intro h; cases h; rfl))

/-- The `Version` record returned to callers, with the unexported `hasMeta`
flag; an absent meta map is the empty list. -/
structure VersionRec where
  name : String
  version : String
  meta : List (String × String)
  hasMeta : Bool
deriving DecidableEq

/-- The history directory of a key; an absent directory behaves exactly
like an empty one for every traversal in the engine. -/
def getHist (s : Store) (key : String) : HistDir :=
  (lookupF s.hist key).getD emptyHistDir

/-- Models `FileKVStore.Get`. -/
def get (s : Store) (key : String) : Except GoErr Value :=
  match validateKey key with
  | some e => .error e
  | none =>
    match lookupF s.live key with
    | none => .error (.wrapErr "reading file" (.pathErr key))
    | some v => .ok v

/-- Models `searchVersionInSubDirs`: scan the page subdirectories (one
level) and return the first one whose directory holds the version file.
The modelled reads cannot fail for any other reason, so the error-list
branch of the source is dead here. -/
def searchVersionInSubDirs (d : HistDir) (version : String) : Option Value :=
  (d.subdirs.filter (fun p => strHasPre p.1 "p_")).findSome?
    (fun p => lookupF p.2 version)

/-- Models `FileKVStore.GetByVersion`. -/
def getByVersion (s : Store) (key version : String) : Except GoErr Value :=
  if version = "head" ∨ version = "HEAD" then get s key
  else
    match validateKey key with
    | some e => .error e
    | none =>
      match lookupF s.hist key with
      | none =>
        -- the default-location read fails not-exist, then ReadDir on the
        -- absent history directory fails and is wrapped twice
        .error (.wrapErr "reading history" (.wrapErr "reading history directory" (.pathErr key)))
      | some d =>
        match lookupF d.files version with
        | some v => .ok v
        | none =>
          match searchVersionInSubDirs d version with
          | some v => .ok v
          | none => .error (.newErr ("version " ++ version ++ " not found for key " ++ key))

/-- Candidate snapshot file name number `counter`: the bare timestamp for
0, `ts_counter` otherwise. -/
def candName (base : String) (counter : Nat) : String :=
  if counter = 0 then base else base ++ "_" ++ ⟨natToChars counter⟩

/-- The unique-name loop of `SetWithTimestamp`, fuelled (the Go loop is
unbounded but terminates because the directory is finite). -/
def findFreeAux (names : List String) (base : String) : Nat → Nat → String
  | 0, counter => candName base counter
  | fuel + 1, counter =>
    if names.contains (candName base counter) then findFreeAux names base fuel (counter + 1)
    else candName base counter

/-- First free candidate name; `names.length + 1` fuel always suffices. -/
def findFreeName (names : List String) (base : String) : String :=
  findFreeAux names base (names.length + 1) 0

/-- Everything `os.Stat` can see directly inside the history directory:
files and subdirectories. -/
def statNames (d : HistDir) : List String :=
  d.files.map (fun f => f.1) ++ d.subdirs.map (fun p => p.1)

/-- Models `FileKVStore.SetWithTimestamp`: read the live file, overwrite it,
and when the bytes changed write one history snapshot under the first free
name derived from the timestamp, returning the bare timestamp string. -/
def setWithTimestamp (s : Store) (key : String) (value : Value) (ts : Int) :
    Except GoErr String × Store :=
  match validateKey key with
  | some e => (.error e, s)
  | none =>
    let shouldCreateHistory :=
      match lookupF s.live key with
      | none => true
      | some existing => existing != value
    let s1 : Store := { s with live := setF s.live key value }
    if shouldCreateHistory then
      let tsStr := intToStr ts
      let d := getHist s1 key
      let name := findFreeName (statNames d) tsStr
      let d2 := { d with files := setF d.files name value }
      (.ok tsStr, { s1 with hist := setF s1.hist key d2 })
    else
      (.ok "", s1)

/-- Models `FileKVStore.Set`: `SetWithTimestamp` at the injected clock's
current nanosecond reading. -/
def set (s : Store) (key : String) (value : Value) (nowNs : Int) :
    Except GoErr String × Store :=
  setWithTimestamp s key value nowNs

/-- Models `ensureHistoryRecordExists`: write the current live value as a
snapshot named after the timestamp (creating the directory if needed). -/
def ensureHistoryRecordExists (s : Store) (key : String) (ts : Int) :
    Except GoErr String × Store :=
  match get s key with
  | .error e => (.error e, s)
  | .ok v =>
    let tsStr := intToStr ts
    let d := getHist s key
    (.ok tsStr, { s with hist := setF s.hist key { d with files := setF d.files tsStr v } })

/-- Collect every history record of a directory; `foreachHistories` never
signals errors in the model. -/
def readHistoriesRaw (d : HistDir) : List HEntry := histEntries d

/-- One step of `GetLastVersion`'s fold: keep the record whose parsed
timestamp strictly exceeds the running maximum (initially 0). -/
def lastVerStep (acc : Int × String × String × Bool) (e : HEntry) :
    Int × String × String × Bool :=
  match goParseInt e.version with
  | none => acc
  | some ts => if ts > acc.1 then (ts, e.path, e.path, e.hasMeta) else acc

/-- Models `GetLastVersion`'s fold over the traversal: the running maximum
parsed timestamp, the location-qualified name, the file path and the meta
flag of the current best record. -/
def lastVerFold (entries : List HEntry) : Int × String × String × Bool :=
  entries.foldl lastVerStep (0, "", "", false)

/-- Models `FileKVStore.GetLastVersion`. -/
def getLastVersion (s : Store) (key : String) : Except GoErr VersionRec :=
  match validateKey key with
  | some e => .error e
  | none =>
    let d := getHist s key
    let r := lastVerFold (histEntries d)
    if r.1 = 0 then .error (.wrapErr ("no history found for key " ++ key) .notExistErr)
    else
      let meta := if r.2.2.2 then readProps (readFileAt d (r.2.2.1 ++ ".meta")) else []
      .ok { name := r.2.1, version := intToStr r.1, meta := meta, hasMeta := false }

/-- The comparison of the `sort.Slice` calls: plain string order on the
`Version` field. -/
def verLe (a b : HEntry) : Prop := strLe a.version b.version = true

instance : DecidableRel verLe := fun a b =>
  inferInstanceAs (Decidable (strLe a.version b.version = true))

/-- Models `readHistories`: enumerate and sort ascending by the plain
string order on `Version`.  Go's `sort.Slice` produces some ordering of
the records that is sorted for the comparison; the model uses insertion
sort, which is such an ordering (and the only one when versions are
pairwise distinct). -/
def readHistories (d : HistDir) : List VersionRec :=
  (List.insertionSort verLe (histEntries d)).map
    (fun e => { name := e.path, version := e.version, meta := [], hasMeta := e.hasMeta })

/-- Models `FileKVStore.GetHistories`: sorted records, with the meta map
attached for every record whose meta file was seen. -/
def getHistories (s : Store) (key : String) : Except GoErr (List VersionRec) :=
  match validateKey key with
  | some e => .error e
  | none =>
    let d := getHist s key
    .ok ((readHistories d).map (fun v =>
      if v.hasMeta then { v with meta := readProps (readFileAt d (v.name ++ ".meta")) } else v))

/-- Index of the first record with the given version, as the linear scans
in `GetPrevVersion` and `GetNextVersion` compute it. -/
def findVersionIdx (hs : List VersionRec) (revision : String) : Option Nat :=
  hs.findIdx? (fun v => v.version == revision)

/-- Models `FileKVStore.GetPrevVersion`. -/
def getPrevVersion (s : Store) (key revision : String) : Except GoErr VersionRec :=
  match validateKey key with
  | some e => .error e
  | none =>
    let hs := readHistories (getHist s key)
    if hs.isEmpty then .error (.wrapErr ("no history found for key " ++ key) .notExistErr)
    else if revision = "head" ∨ revision = "HEAD" then
      if hs.length < 2 then .error (.wrapErr "no previous version found" .notExistErr)
      else
        match hs.get? (hs.length - 2) with
        | some v => .ok v
        | none => .error (.wrapErr "no previous version found" .notExistErr)
    else
      match findVersionIdx hs revision with
      | none =>
        .error (.wrapErr ("version " ++ revision ++ " not found for key " ++ key) .notExistErr)
      | some idx =>
        if idx = 0 then .error (.wrapErr "no previous version found" .notExistErr)
        else
          match hs.get? (idx - 1) with
          | some v => .ok v
          | none => .error (.wrapErr "no previous version found" .notExistErr)

/-- Models `FileKVStore.GetNextVersion`; note the `head` check comes before
the key validation, exactly as in the source. -/
def getNextVersion (s : Store) (key revision : String) : Except GoErr VersionRec :=
  if revision = "head" ∨ revision = "HEAD" then
    .error (.wrapErr "no next version found" .notExistErr)
  else
    match validateKey key with
    | some e => .error e
    | none =>
      let hs := readHistories (getHist s key)
      if hs.isEmpty then .error (.wrapErr ("no history found for key " ++ key) .notExistErr)
      else
        match findVersionIdx hs revision with
        | none =>
          .error (.wrapErr ("version " ++ revision ++ " not found for key " ++ key) .notExistErr)
        | some idx =>
          if idx = hs.length - 1 then .error (.wrapErr "no next version found" .notExistErr)
          else
            match hs.get? (idx + 1) with
            | some v => .ok v
            | none => .error (.wrapErr "no next version found" .notExistErr)

/-- Resolve the snapshot file for an explicit (non-head) version: default
location first, then the pages; used by `SetMeta` and `UpdateMeta`. -/
def resolveVersionFile (d : HistDir) (version : String) : Option String :=
  match lookupF d.files version with
  | some _ => some version
  | none =>
    match (d.subdirs.filter (fun p => strHasPre p.1 "p_")).find?
        (fun p => (lookupF p.2 version).isSome) with
    | some p => some (p.1 ++ "/" ++ version)
    | none => none

/-- Models `FileKVStore.SetMeta`.  For `head`, the not-found error of
`GetLastVersion` is wrapped, so `os.IsNotExist` does not recognise it and
the call surfaces it instead of materialising a history record, exactly as
the source behaves. -/
def setMeta (s : Store) (key version : String) (meta : List (String × String)) (nowNs : Int) :
    Except GoErr Unit × Store :=
  match validateKey key with
  | some e => (.error e, s)
  | none =>
    if version = "head" ∨ version = "HEAD" then
      match getLastVersion s key with
      | .error e =>
        if isNotExist e then
          match ensureHistoryRecordExists s key nowNs with
          | (.error e2, s2) => (.error e2, s2)
          | (.ok versionName, s2) =>
            let d := getHist s2 key
            let d2 := writeFileAt d (versionName ++ ".meta") (propsEncode meta)
            (.ok (), { s2 with hist := setF s2.hist key d2 })
        else (.error e, s)
      | .ok lastVersion =>
        let d := getHist s key
        let d2 := writeFileAt d (lastVersion.name ++ ".meta") (propsEncode meta)
        (.ok (), { s with hist := setF s.hist key d2 })
    else
      let d := getHist s key
      match resolveVersionFile d version with
      | none => (.error (.wrapErr ("no history found for key " ++ key) .notExistErr), s)
      | some versionFile =>
        let d2 := writeFileAt d (versionFile ++ ".meta") (propsEncode meta)
        (.ok (), { s with hist := setF s.hist key d2 })

/-- The merge step of `UpdateMeta`: keep the old map and overwrite with the
new entries (or take the new map when the old one is empty). -/
def mergeMeta (existing meta : List (String × String)) : List (String × String) :=
  if existing.isEmpty then meta
  else meta.foldl (fun m kv => setF m kv.1 kv.2) existing

/-- Models `FileKVStore.UpdateMeta`. -/
def updateMeta (s : Store) (key version : String) (meta : List (String × String)) (nowNs : Int) :
    Except GoErr Unit × Store :=
  match validateKey key with
  | some e => (.error e, s)
  | none =>
    if version = "head" ∨ version = "HEAD" then
      match getLastVersion s key with
      | .error _ =>
        match ensureHistoryRecordExists s key nowNs with
        | (.error e2, s2) => (.error e2, s2)
        | (.ok versionName, s2) =>
          let d := getHist s2 key
          let metaFile := versionName ++ ".meta"
          let existing := readProps (readFileAt d metaFile)
          let d2 := writeFileAt d metaFile (propsEncode (mergeMeta existing meta))
          (.ok (), { s2 with hist := setF s2.hist key d2 })
      | .ok lastVersion =>
        let d := getHist s key
        let metaFile := lastVersion.name ++ ".meta"
        let existing := readProps (readFileAt d metaFile)
        let d2 := writeFileAt d metaFile (propsEncode (mergeMeta existing meta))
        (.ok (), { s with hist := setF s.hist key d2 })
    else
      let d := getHist s key
      match resolveVersionFile d version with
      | none => (.error (.wrapErr ("no history found for key " ++ key) .notExistErr), s)
      | some versionFile =>
        let metaFile := versionFile ++ ".meta"
        let existing := readProps (readFileAt d metaFile)
        let d2 := writeFileAt d metaFile (propsEncode (mergeMeta existing meta))
        (.ok (), { s with hist := setF s.hist key d2 })

/-- True when some live file lies strictly below the key, i.e. the key
path is a directory on disk. -/
def isNamespaceDir (live : List (String × Value)) (key : String) : Bool :=
  live.any (fun p => strHasPre p.1 (key ++ "/"))

/-- Models `FileKVStore.Delete`. -/
def deleteKey (s : Store) (key : String) (removeHistories : Bool) :
    Except GoErr Unit × Store :=
  match validateKey key with
  | some e => (.error e, s)
  | none =>
    match lookupF s.live key with
    | none =>
      if isNamespaceDir s.live key then
        (.error (.newErr ("cannot delete key " ++ key ++ ": it has child keys")), s)
      else (.ok (), s)
    | some _ =>
      let s1 : Store :=
        if removeHistories then
          { s with hist := removeF s.hist key }
        else s
      (.ok (), { s1 with live := removeF s1.live key })

/-- Models `FileKVStore.Exists`: true iff the live path exists and is a
regular file (a pure namespace directory yields false). -/
def existsKey (s : Store) (key : String) : Except GoErr Bool :=
  match validateKey key with
  | some e => .error e
  | none =>
    match lookupF s.live key with
    | some _ => .ok true
    | none => .ok false

/-- The (path, version) pairs contributed by the page subdirectories of a
history directory, in traversal order. -/
def pagesKeys (sds : List (String × List (String × Value))) : List (String × String) :=
  ((sds.filter (fun s => strHasPre s.1 "p_")).map
    (fun s => (dirEntries s.1 s.2).map (fun e => (e.path, e.version)))).flatten

/-- The (path, version) pairs of the whole history traversal. -/
def entryKeys (d : HistDir) : List (String × String) :=
  (histEntries d).map (fun e => (e.path, e.version))

/-- Well-formedness of a history directory as the filesystem guarantees it:
no file or subdirectory name contains a separator, and subdirectory names
are distinct. -/
def wfHistDir (d : HistDir) : Prop :=
  (∀ f ∈ d.files, ('/') ∉ f.1.data) ∧
  ((d.subdirs.map fun p => p.1).Nodup) ∧
  (∀ p ∈ d.subdirs, ('/') ∉ p.1.data ∧ ∀ f ∈ p.2, ('/') ∉ f.1.data)

/-- Shape of the entries `traverseDir` yields from a well-formed history
directory: the version is a separator-free non-meta name, and the path is
either the bare version (default location) or one separator-free page name
followed by the version. -/
def goodEntry (e : HEntry) : Prop :=
  strHasSuf e.version ".meta" = false ∧ ('/') ∉ e.version.data ∧
  (e.path = e.version ∨ ∃ p, ('/') ∉ p.data ∧ e.path = p ++ "/" ++ e.version)

/-- Removal of one history record: delete the snapshot file and, when the
traversal saw a meta companion, the meta file too (the deletion step shared
by both cleanup operations). -/
def removeEntry (dd : HistDir) (e : HEntry) : HistDir :=
  let dd1 := removeFileAt dd e.path
  if e.hasMeta then removeFileAt dd1 (e.path ++ ".meta") else dd1

/-- Go `Time.Unix()` of a nanosecond instant: floor division by 10^9. -/
def unixSeconds (ns : Int) : Int := Int.fdiv ns 1000000000

/-- Models `FileKVStore.CleanupHistoriesByTime`.  The cutoff follows the
source: `timex.Now().Add(-maxAge).Unix()`, i.e. Unix seconds, compared
against the parsed (nanosecond) snapshot names. -/
def cleanupHistoriesByTime (s : Store) (key : String) (maxAgeNs nowNs : Int) :
    Except GoErr Unit × Store :=
  match validateKey key with
  | some e => (.error e, s)
  | none =>
    match lookupF s.hist key with
    | none => (.ok (), s)
    | some d =>
      let cutoffTime := unixSeconds (nowNs - maxAgeNs)
      let d2 := (histEntries d).foldl
        (fun dd e =>
          match goParseInt e.version with
          | none => dd
          | some ts => if ts < cutoffTime then removeEntry dd e else dd)
        d
      (.ok (), { s with hist := setF s.hist key d2 })

/-- Models `FileKVStore.CleanupHistoriesByCount` (the Go parameter is an
`int`; the engine only ever retains when `count ≤ maxCount`, so a natural
number models the non-negative case the claim quantifies over). -/
def cleanupHistoriesByCount (s : Store) (key : String) (maxCount : Nat) :
    Except GoErr Unit × Store :=
  match validateKey key with
  | some e => (.error e, s)
  | none =>
    match lookupF s.hist key with
    | none => (.ok (), s)
    | some d =>
      let allHistories := List.insertionSort verLe (histEntries d)
      if allHistories.length ≤ maxCount then (.ok (), s)
      else
        let toRemove := allHistories.take (allHistories.length - maxCount)
        let d2 := toRemove.foldl removeEntry d
        (.ok (), { s with hist := setF s.hist key d2 })

/-- Go constant `maxHistoryCount`. -/
def maxHistoryCount : Nat := 200

/-- Moves one snapshot (and its meta companion, when the initial listing
recorded one and the meta file is still present) from the default location
into the page directory being filled.  A missing snapshot would make the
Go `os.Rename` fail and abort `Fsck`; well-formed directories never hit
that case, and the model skips it. -/
def moveOne (metas : List String) (st : HistDir × List (String × Value)) (n : String) :
    HistDir × List (String × Value) :=
  let d := st.1
  let page := st.2
  let step1 : HistDir × List (String × Value) :=
    match lookupF d.files n with
    | some c => ({ d with files := removeF d.files n }, page ++ [(n, c)])
    | none => (d, page)
  let d1 := step1.1
  let page1 := step1.2
  if metas.contains n then
    match lookupF d1.files (n ++ ".meta") with
    | some c =>
      ({ d1 with files := removeF d1.files (n ++ ".meta") }, page1 ++ [(n ++ ".meta", c)])
    | none => (d1, page1)
  else (d1, page1)

/-- Moves one whole page group: creates (or reuses, as `MkdirAll` allows)
the page directory named after the group's first snapshot and moves the
group's snapshots and metas into it. -/
def moveGroup (metas : List String) (d : HistDir) (grp : List String) : HistDir :=
  match grp with
  | [] => d
  | first :: _ =>
    let pageName := "p_" ++ first
    let start := (lookupF d.subdirs pageName).getD []
    let res := grp.foldl (moveOne metas) (d, start)
    { res.1 with subdirs := setF res.1.subdirs pageName res.2 }

/-- The paging loop of `organizeHistoriesIfNeeded`, fuelled: while at least
`maxHistoryCount` snapshots remain subject to organisation, move the oldest
`maxHistoryCount` of them into a fresh page directory. -/
def organizeLoop (metas : List String) : Nat → HistDir → List String → HistDir
  | 0, d, _ => d
  | fuel + 1, d, organizing =>
    if maxHistoryCount ≤ organizing.length then
      organizeLoop metas fuel (moveGroup metas d (organizing.take maxHistoryCount))
        (organizing.drop maxHistoryCount)
    else d

/-- Snapshot file names of the default location, in directory order. -/
def snapNames (files : List (String × Value)) : List String :=
  (files.filter (fun f => isSnapName f.1)).map (fun f => f.1)

/-- Models `organizeHistoriesIfNeeded`: list the default-location
snapshots, sort ascending by name, keep the newest one out of the paging
set, and move the rest page by page.  An absent history directory is a
no-op, like the empty directory here. -/
def organizeHistoriesIfNeeded (d : HistDir) : HistDir :=
  let allHistories := List.insertionSort (fun a b : String => strLe a b = true) (snapNames d.files)
  let metas := metaNames d.files
  let organizing := if 1 < allHistories.length then allHistories.dropLast else allHistories
  organizeLoop metas (organizing.length + 1) d organizing

/-- The combined effect of `Fsck` on the history directory of one key that
exists as a live file with a valid name: the orphan pass leaves it alone,
the organisation pass pages it, and the backfill pass writes one snapshot
named after the current clock when the traversal finds none. -/
def fsckKeyHistory (d : HistDir) (liveValue : Value) (nowNs : Int) : HistDir :=
  let d1 := organizeHistoriesIfNeeded d
  if (histEntries d1).isEmpty then
    { d1 with files := setF d1.files (intToStr nowNs) liveValue }
  else d1

/-- A node of the root directory tree, for `ListKeys`. -/
inductive FNode where
  | file (name : String)
  | dir (name : String) (children : List FNode)

/-- Name of a tree node. -/
def FNode.name : FNode → String
  | .file n => n
  | .dir n _ => n

/-- True when `filepath.WalkDir` must skip this entry: the walk skips
`.history`, hidden names, page names and history-directory names (and a
bare `.`). -/
def skipName (n : String) : Bool :=
  n = "." || n = ".history" || strHasPre n "p_" || strHasPre n "." || strHasSuf n ".h"

/-- Root-relative path of an entry named `n` inside the directory whose
root-relative path is `base` (`filepath.Rel` plus slash normalisation). -/
def relOf (base n : String) : String :=
  if base = "" then n else base ++ "/" ++ n

/-- Models the `filepath.WalkDir` body of `ListKeys` over the children of
one directory whose root-relative path is `base` (empty at the root).
Returning `filepath.SkipDir` from a directory skips its subtree; returning
it from a file abandons the remaining entries of the containing directory,
exactly as `WalkDir` specifies, hence the early cut-off. -/
def walkList (pre : String) (base : String) : List FNode → List String
  | [] => []
  | FNode.file n :: rest =>
    if skipName n then []
    else
      (if pre = "" ∨ strHasPre (relOf base n) pre then [relOf base n] else []) ++
        walkList pre base rest
  | FNode.dir n children :: rest =>
    (if skipName n then []
     else if pre.length < (relOf base n).length ∧ ¬ strHasPre (relOf base n) pre then []
     else walkList pre (relOf base n) children) ++ walkList pre base rest

/-- Models `FileKVStore.ListKeys`: walk the root tree.  The root directory
itself is visited first with relative path `.`; it is never filtered by
the prefix test, but a special root basename ends the walk at once. -/
def listKeys (rootName : String) (children : List FNode) (pre : String) : List String :=
  if skipName rootName then []
  else walkList pre "" children

/-- Well-formedness of a directory tree: no entry name contains a path
separator (filesystem names never do). -/
def wfNodes : List FNode → Bool
  | [] => true
  | FNode.file n :: rest => !strContainsChar n '/' && wfNodes rest
  | FNode.dir n children :: rest =>
    !strContainsChar n '/' && wfNodes children && wfNodes rest

/-- A path segment the spec reserves: starting with `.` or `p_`, or ending
with `.h`. -/
def specialSegment (part : String) : Bool :=
  strHasPre part "." || strHasPre part "p_" || strHasSuf part ".h"

/-- The read-cache decorator state: the wrapped store plus the in-memory
map from key to bytes. -/
structure CachedStore where
  store : Store
  cache : List (String × Value)
deriving DecidableEq

/-- Models `CachedFileKVStore.Get`: serve from the cache, else delegate
and populate. -/
def cachedGet (c : CachedStore) (key : String) : Except GoErr Value × CachedStore :=
  match lookupF c.cache key with
  | some v => (.ok v, c)
  | none =>
    match get c.store key with
    | .error e => (.error e, c)
    | .ok v => (.ok v, { c with cache := setF c.cache key v })

/-- Models `CachedFileKVStore.SetWithTimestamp`: always delegate; update
the cache entry only when the returned version is non-empty.  The third
component records whether the wrapped store was called. -/
def cachedSetWithTimestamp (c : CachedStore) (key : String) (value : Value) (ts : Int) :
    Except GoErr String × CachedStore × Bool :=
  match setWithTimestamp c.store key value ts with
  | (.error e, s2) => (.error e, ⟨s2, c.cache⟩, true)
  | (.ok version, s2) =>
    if version = "" then (.ok version, ⟨s2, c.cache⟩, true)
    else (.ok version, ⟨s2, setF c.cache key value⟩, true)

/-- Models `CachedFileKVStore.Set` (the variant with the cache fast path):
when the cached bytes equal the new value, return the empty version at
once without calling the wrapped store; otherwise delegate and update the
cache as `SetWithTimestamp` does.  The third component records whether the
wrapped store was called. -/
def cachedSet (c : CachedStore) (key : String) (value : Value) (nowNs : Int) :
    Except GoErr String × CachedStore × Bool :=
  match lookupF c.cache key with
  | some v =>
    if v = value then (.ok "", c, false)
    else
      match set c.store key value nowNs with
      | (.error e, s2) => (.error e, ⟨s2, c.cache⟩, true)
      | (.ok version, s2) =>
        if version = "" then (.ok version, ⟨s2, c.cache⟩, true)
        else (.ok version, ⟨s2, setF c.cache key value⟩, true)
  | none =>
    match set c.store key value nowNs with
    | (.error e, s2) => (.error e, ⟨s2, c.cache⟩, true)
    | (.ok version, s2) =>
      if version = "" then (.ok version, ⟨s2, c.cache⟩, true)
      else (.ok version, ⟨s2, setF c.cache key value⟩, true)

/-! Supporting lemmas: decimal formatting, snapshot-name classification,
association lists, and the unique-name search. -/

theorem digitChar_isDigit (n : Nat) : (digitChar n).isDigit = true := by
  unfold digitChar
  repeat' split
  all_goals decide

theorem charVal_digitChar (n : Nat) (h : n < 10) : charVal (digitChar n) = n := by
  interval_cases n <;> decide

theorem natToCharsAux_append (fuel : Nat) :
    ∀ n acc, natToCharsAux fuel n acc = natToCharsAux fuel n [] ++ acc := by
  induction fuel with
  | zero => intro n acc; simp [natToCharsAux]
  | succ f ih =>
    intro n acc
    by_cases h : n < 10
    · simp [natToCharsAux, h]
    · simp only [natToCharsAux, if_neg h]
      rw [ih (n / 10) (digitChar (n % 10) :: acc), ih (n / 10) [digitChar (n % 10)]]
      simp

theorem digitsToNat_append_digit (cs : List Char) (c : Char) :
    digitsToNat (cs ++ [c]) = 10 * digitsToNat cs + charVal c := by
  simp [digitsToNat, List.foldl_append]
  ring

theorem natToCharsAux_spec : ∀ fuel n, n < 10 ^ (fuel + 1) →
    digitsToNat (natToCharsAux (fuel + 1) n []) = n ∧ natToCharsAux (fuel + 1) n [] ≠ [] := by
  intro fuel
  induction fuel with
  | zero =>
    intro n h
    have hn : n < 10 := by simpa using h
    constructor
    · simp [natToCharsAux, hn, digitsToNat, charVal_digitChar n hn]
    · simp [natToCharsAux, hn]
  | succ f ih =>
    intro n h
    by_cases hn : n < 10
    · constructor
      · simp [natToCharsAux, hn, digitsToNat, charVal_digitChar n hn]
      · simp [natToCharsAux, hn]
    · have hstep : natToCharsAux (f + 1 + 1) n [] =
          natToCharsAux (f + 1) (n / 10) [] ++ [digitChar (n % 10)] := by
        conv_lhs => rw [natToCharsAux]
        rw [if_neg hn, natToCharsAux_append]
      have hdiv : n / 10 < 10 ^ (f + 1) := by
        have h10 : (0:Nat) < 10 := by norm_num
        rw [Nat.div_lt_iff_lt_mul h10]
        calc n < 10 ^ (f + 1 + 1) := h
        _ = 10 ^ (f + 1) * 10 := by ring
      obtain ⟨hv, hne⟩ := ih (n / 10) hdiv
      constructor
      · rw [hstep, digitsToNat_append_digit, hv,
          charVal_digitChar _ (Nat.mod_lt _ (by norm_num))]
        omega
      · rw [hstep]; simp

theorem digitsToNat_natToChars (n : Nat) : digitsToNat (natToChars n) = n := by
  have h : n < 10 ^ (n + 1) :=
    lt_of_lt_of_le (Nat.lt_pow_self (by norm_num) n)
      (Nat.pow_le_pow_right (by norm_num) (by omega))
  exact (natToCharsAux_spec n n h).1

theorem natToChars_ne_nil (n : Nat) : natToChars n ≠ [] := by
  have h : n < 10 ^ (n + 1) :=
    lt_of_lt_of_le (Nat.lt_pow_self (by norm_num) n)
      (Nat.pow_le_pow_right (by norm_num) (by omega))
  exact (natToCharsAux_spec n n h).2

theorem natToChars_injective {a b : Nat} (h : natToChars a = natToChars b) : a = b := by
  have := digitsToNat_natToChars a
  rw [h, digitsToNat_natToChars] at this
  omega

theorem natToChars_all_digits : ∀ fuel n acc,
    (∀ c ∈ acc, c.isDigit = true) → ∀ c ∈ natToCharsAux fuel n acc, c.isDigit = true := by
  intro fuel
  induction fuel with
  | zero => intro n acc hacc c hc; exact hacc c hc
  | succ f ih =>
    intro n acc hacc c hc
    by_cases h : n < 10
    · simp only [natToCharsAux, if_pos h] at hc
      rcases List.mem_cons.mp hc with rfl | hmem
      · exact digitChar_isDigit n
      · exact hacc c hmem
    · simp only [natToCharsAux, if_neg h] at hc
      refine ih (n / 10) (digitChar (n % 10) :: acc) ?_ c hc
      intro c2 hc2
      rcases List.mem_cons.mp hc2 with rfl | hmem
      · exact digitChar_isDigit (n % 10)
      · exact hacc c2 hmem



theorem getLast?_cons_of_ne {a : Char} {l : List Char} (h : l ≠ []) :
    (a :: l).getLast? = l.getLast? := by
  cases l with
  | nil => exact absurd rfl h
  | cons b m => simp [List.getLast?_cons_cons]

theorem intToStr_data (ts : Int) :
    (intToStr ts).data = if ts < 0 then '-' :: natToChars ts.natAbs else natToChars ts.natAbs := by
  unfold intToStr
  split <;> rfl

theorem natToChars_digits (n : Nat) : ∀ c ∈ natToChars n, c.isDigit = true := by
  intro c hc
  exact natToChars_all_digits (n + 1) n [] (by intro c2 hc2; cases hc2) c hc

theorem intToStr_last_digit (ts : Int) :
    ∀ c, (intToStr ts).data.getLast? = some c → c.isDigit = true := by
  intro c hc
  rw [intToStr_data] at hc
  have hmem : c ∈ natToChars ts.natAbs := by
    split at hc
    · rw [getLast?_cons_of_ne (natToChars_ne_nil ts.natAbs)] at hc
      exact List.mem_of_mem_getLast? hc
    · exact List.mem_of_mem_getLast? hc
  exact natToChars_digits ts.natAbs c hmem

theorem intToStr_head (ts : Int) :
    ∀ c, (intToStr ts).data.head? = some c → c = '-' ∨ c.isDigit = true := by
  intro c hc
  rw [intToStr_data] at hc
  split at hc
  · simp at hc
    exact Or.inl hc.symm
  · cases hh : natToChars ts.natAbs with
    | nil => rw [hh] at hc; cases hc
    | cons b l =>
      rw [hh] at hc
      simp at hc
      subst hc
      exact Or.inr (natToChars_digits ts.natAbs b (by rw [hh]; exact List.mem_cons_self b l))

theorem candName_zero (base : String) : candName base 0 = base := by
  simp [candName]

theorem candName_succ_data (base : String) (j : Nat) (h : j ≠ 0) :
    (candName base j).data = base.data ++ '_' :: natToChars j := by
  simp [candName, h]

theorem strHasPre_dot_false (n : String) (h : ∀ c, n.data.head? = some c → c ≠ '.') :
    strHasPre n "." = false := by
  unfold strHasPre
  cases hd : n.data with
  | nil => rfl
  | cons c l =>
    have hcne : c ≠ '.' := h c (by rw [hd]; rfl)
    simp [List.isPrefixOf]
    exact fun hcc => absurd hcc.symm hcne

theorem strHasSuf_meta_false (n : String)
    (h : ∀ c, n.data.getLast? = some c → c.isDigit = true) :
    strHasSuf n ".meta" = false := by
  unfold strHasSuf
  cases hr : n.data.reverse with
  | nil => rfl
  | cons c l =>
    have hlast : n.data.getLast? = some c := by
      rw [← List.head?_reverse, hr]; rfl
    have hdig := h c hlast
    have hane : ('a' : Char) ≠ c := by
      intro hac
      rw [← hac] at hdig
      cases hdig
    have hm : (".meta".data.reverse) = ['a', 't', 'e', 'm', '.'] := by decide
    rw [hm]
    simp [List.isPrefixOf]
    intro hcc
    exact absurd hcc hane

theorem isSnapName_candName (ts : Int) (j : Nat) :
    isSnapName (candName (intToStr ts) j) = true := by
  have hne : natToChars ts.natAbs ≠ [] := natToChars_ne_nil ts.natAbs
  have hpre : strHasPre (candName (intToStr ts) j) "." = false := by
    apply strHasPre_dot_false
    intro c hc
    by_cases hj : j = 0
    · subst hj
      rw [candName_zero] at hc
      rcases intToStr_head ts c hc with rfl | hdig
      · decide
      · intro hcc; rw [hcc] at hdig; cases hdig
    · rw [candName_succ_data _ _ hj] at hc
      cases hb : (intToStr ts).data with
      | nil =>
        exfalso
        rw [intToStr_data] at hb
        split at hb
        · cases hb
        · exact hne hb
      | cons b l =>
        rw [hb] at hc
        simp at hc
        intro hcc
        have hbdot : b = '.' := by rw [hc, hcc]
        rcases intToStr_head ts b (by rw [hb]; rfl) with hminus | hdig
        · rw [hbdot] at hminus; cases hminus
        · rw [hbdot] at hdig; cases hdig
  have hsuf : strHasSuf (candName (intToStr ts) j) ".meta" = false := by
    apply strHasSuf_meta_false
    intro c hc
    by_cases hj : j = 0
    · subst hj
      rw [candName_zero] at hc
      exact intToStr_last_digit ts c hc
    · rw [candName_succ_data _ _ hj] at hc
      rw [List.getLast?_append_of_ne_nil _ (by simp)] at hc
      rw [getLast?_cons_of_ne (natToChars_ne_nil j)] at hc
      exact natToChars_digits j c (List.mem_of_mem_getLast? hc)
  simp [isSnapName, hpre, hsuf]



theorem lookupF_setF_self {α : Type} (m : List (String × α)) (k : String) (v : α) :
    lookupF (setF m k v) k = some v := by
  induction m with
  | nil => simp [setF, lookupF]
  | cons p rest ih =>
    obtain ⟨a, b⟩ := p
    by_cases h : a = k
    · simp [setF, h, lookupF]
    · simp [setF, h, lookupF, ih]

theorem setF_of_lookup_some {α : Type} {m : List (String × α)} {k : String} {v : α}
    (h : lookupF m k = some v) : setF m k v = m := by
  induction m with
  | nil => simp [lookupF] at h
  | cons p rest ih =>
    obtain ⟨a, b⟩ := p
    by_cases ha : a = k
    · subst ha
      simp [lookupF] at h
      simp [setF, h]
    · simp [lookupF, ha] at h
      simp [setF, ha, ih h]

theorem lookupF_eq_none_iff {α : Type} (m : List (String × α)) (k : String) :
    lookupF m k = none ↔ ∀ p ∈ m, p.1 ≠ k := by
  induction m with
  | nil => simp [lookupF]
  | cons p rest ih =>
    obtain ⟨a, b⟩ := p
    by_cases h : a = k
    · simp [lookupF, h]
    · simp [lookupF, h, ih]

theorem setF_of_lookup_none {α : Type} {m : List (String × α)} {k : String} (v : α)
    (h : lookupF m k = none) : setF m k v = m ++ [(k, v)] := by
  rw [lookupF_eq_none_iff] at h
  induction m with
  | nil => simp [setF]
  | cons p rest ih =>
    obtain ⟨a, b⟩ := p
    have ha : a ≠ k := h (a, b) (List.mem_cons_self _ _)
    simp [setF, ha]
    exact ih (fun p hp => h p (List.mem_cons_of_mem _ hp))

theorem lookupF_eq_none_of_not_mem {α : Type} {m : List (String × α)} {k : String}
    (h : k ∉ m.map (fun p => p.1)) : lookupF m k = none := by
  rw [lookupF_eq_none_iff]
  intro p hp hpk
  exact h (hpk ▸ List.mem_map_of_mem (fun q => q.1) hp)

theorem findFreeAux_spec (names : List String) (base : String) :
    ∀ fuel start, (∃ j, start ≤ j ∧ j < start + fuel ∧ candName base j ∉ names) →
      ∃ j, start ≤ j ∧ (∀ i, start ≤ i → i < j → candName base i ∈ names) ∧
        candName base j ∉ names ∧ findFreeAux names base fuel start = candName base j := by
  intro fuel
  induction fuel with
  | zero =>
    intro start h
    obtain ⟨j, h1, h2, _⟩ := h
    omega
  | succ f ih =>
    intro start h
    by_cases hmem : names.contains (candName base start)
    · have hstart : candName base start ∈ names := List.elem_iff.mp hmem
      obtain ⟨j, hj1, hj2, hj3⟩ := h
      have hjs : j ≠ start := fun he => hj3 (he ▸ hstart)
      obtain ⟨j2, hj21, hj22, hj23, hj24⟩ := ih (start + 1) ⟨j, by omega, by omega, hj3⟩
      refine ⟨j2, by omega, ?_, hj23, ?_⟩
      · intro i hi1 hi2
        by_cases hie : i = start
        · exact hie ▸ hstart
        · exact hj22 i (by omega) hi2
      · simp only [findFreeAux, hmem, if_true]
        exact hj24
    · refine ⟨start, le_refl _, by omega, ?_, ?_⟩
      · intro hc; exact hmem (List.elem_iff.mpr hc)
      · rw [findFreeAux, if_neg (by simpa using hmem)]

theorem candName_injective (base : String) : Function.Injective (candName base) := by
  intro i j hij
  by_cases hi : i = 0 <;> by_cases hj : j = 0
  · omega
  · exfalso
    subst hi
    rw [candName_zero] at hij
    have := congrArg String.data hij
    rw [candName_succ_data _ _ hj] at this
    have hlen := congrArg List.length this
    simp at hlen
  · exfalso
    subst hj
    rw [candName_zero] at hij
    have := congrArg String.data hij
    rw [candName_succ_data _ _ hi] at this
    have hlen := congrArg List.length this
    simp at hlen
  · have := congrArg String.data hij
    rw [candName_succ_data _ _ hi, candName_succ_data _ _ hj] at this
    have h2 := List.append_cancel_left this
    have h3 : natToChars i = natToChars j := by injection h2
    exact natToChars_injective h3

theorem exists_free_cand (names : List String) (base : String) :
    ∃ j, j < names.length + 1 ∧ candName base j ∉ names := by
  by_contra hall
  push_neg at hall
  have hsub : ((List.range (names.length + 1)).map (candName base)) ⊆ names := by
    intro x hx
    obtain ⟨j, hj, rfl⟩ := List.mem_map.mp hx
    exact hall j (List.mem_range.mp hj)
  have hnd : ((List.range (names.length + 1)).map (candName base)).Nodup :=
    (List.nodup_range _).map (candName_injective base)
  have h1 : ((List.range (names.length + 1)).map (candName base)).toFinset.card =
      names.length + 1 := by
    rw [List.toFinset_card_of_nodup hnd]
    simp
  have h2 : ((List.range (names.length + 1)).map (candName base)).toFinset ⊆
      names.toFinset := by
    intro x hx
    rw [List.mem_toFinset] at hx ⊢
    exact hsub hx
  have h3 := Finset.card_le_card h2
  have h4 := List.toFinset_card_le names
  omega

theorem findFreeName_spec (names : List String) (base : String) :
    ∃ j, (∀ i, i < j → candName base i ∈ names) ∧ candName base j ∉ names ∧
      findFreeName names base = candName base j := by
  obtain ⟨j, hj1, hj2⟩ := exists_free_cand names base
  obtain ⟨j2, _, h2, h3, h4⟩ :=
    findFreeAux_spec names base (names.length + 1) 0 ⟨j, by omega, by omega, hj2⟩
  exact ⟨j2, fun i hi => h2 i (by omega) hi, h3, h4⟩

theorem findFreeName_not_mem (names : List String) (base : String) :
    findFreeName names base ∉ names := by
  obtain ⟨j, _, h2, h3⟩ := findFreeName_spec names base
  rw [h3]
  exact h2

theorem intToStr_ne_empty (ts : Int) : intToStr ts ≠ "" := by
  intro h
  have := congrArg String.data h
  rw [intToStr_data] at this
  split at this
  · cases this
  · exact natToChars_ne_nil ts.natAbs this

theorem isSnapName_findFreeName (names : List String) (ts : Int) :
    isSnapName (findFreeName names (intToStr ts)) = true := by
  obtain ⟨j, _, _, h3⟩ := findFreeName_spec names (intToStr ts)
  rw [h3]
  exact isSnapName_candName ts j

theorem dirEntries_length (pre : String) (files : List (String × Value)) :
    (dirEntries pre files).length = (files.filter (fun f => isSnapName f.1)).length := by
  simp [dirEntries]

theorem lastVerFold_aux (entries : List HEntry) :
    ∀ acc : Int × String × String × Bool, 0 ≤ acc.1 →
      0 ≤ (entries.foldl lastVerStep acc).1 ∧
      acc.1 ≤ (entries.foldl lastVerStep acc).1 ∧
      (∀ e ∈ entries, ∀ n, goParseInt e.version = some n →
        n ≤ (entries.foldl lastVerStep acc).1) ∧
      ((entries.foldl lastVerStep acc).1 = acc.1 ∨
        ∃ e ∈ entries, goParseInt e.version = some (entries.foldl lastVerStep acc).1) := by
  induction entries with
  | nil =>
    intro acc hacc
    refine ⟨hacc, le_refl _, ?_, Or.inl rfl⟩
    intro e he
    cases he
  | cons e rest ih =>
    intro acc hacc
    simp only [List.foldl_cons]
    cases hp : goParseInt e.version with
    | none =>
      have hstep : lastVerStep acc e = acc := by
        simp [lastVerStep, hp]
      rw [hstep]
      obtain ⟨h1, h2, h3, h4⟩ := ih acc hacc
      refine ⟨h1, h2, ?_, ?_⟩
      · intro e2 he2 n hn
        rcases List.mem_cons.mp he2 with rfl | hmem
        · rw [hp] at hn; cases hn
        · exact h3 e2 hmem n hn
      · rcases h4 with h4 | ⟨e2, he2, hn⟩
        · exact Or.inl h4
        · exact Or.inr ⟨e2, List.mem_cons_of_mem _ he2, hn⟩
    | some ts =>
      by_cases hgt : ts > acc.1
      · have hstep : lastVerStep acc e = (ts, e.path, e.path, e.hasMeta) := by
          simp [lastVerStep, hp, hgt]
        rw [hstep]
        have hts : (0:Int) ≤ ts := le_of_lt (lt_of_le_of_lt hacc hgt)
        obtain ⟨h1, h2, h3, h4⟩ := ih (ts, e.path, e.path, e.hasMeta) hts
        refine ⟨h1, le_of_lt (lt_of_lt_of_le hgt h2), ?_, ?_⟩
        · intro e2 he2 n hn
          rcases List.mem_cons.mp he2 with rfl | hmem
          · rw [hp] at hn
            injection hn with hn
            subst hn
            exact h2
          · exact h3 e2 hmem n hn
        · rcases h4 with h4 | ⟨e2, he2, hn⟩
          · exact Or.inr ⟨e, List.mem_cons_self _ _, by rw [hp, h4]⟩
          · exact Or.inr ⟨e2, List.mem_cons_of_mem _ he2, hn⟩
      · have hstep : lastVerStep acc e = acc := by
          simp [lastVerStep, hp, hgt]
        rw [hstep]
        obtain ⟨h1, h2, h3, h4⟩ := ih acc hacc
        refine ⟨h1, h2, ?_, ?_⟩
        · intro e2 he2 n hn
          rcases List.mem_cons.mp he2 with rfl | hmem
          · rw [hp] at hn
            injection hn with hn
            subst hn
            exact le_trans (le_of_not_lt hgt) h2
          · exact h3 e2 hmem n hn
        · rcases h4 with h4 | ⟨e2, he2, hn⟩
          · exact Or.inl h4
          · exact Or.inr ⟨e2, List.mem_cons_of_mem _ he2, hn⟩

theorem lastVerFold_spec (entries : List HEntry) :
    0 ≤ (lastVerFold entries).1 ∧
    (∀ e ∈ entries, ∀ n, goParseInt e.version = some n → n ≤ (lastVerFold entries).1) ∧
    ((lastVerFold entries).1 = 0 ∨
      ∃ e ∈ entries, goParseInt e.version = some (lastVerFold entries).1) := by
  obtain ⟨h1, _, h3, h4⟩ := lastVerFold_aux entries (0, "", "", false) (le_refl 0)
  exact ⟨h1, h3, h4⟩

theorem listSplit_ne_nil (sep : Char) (cs : List Char) : listSplit sep cs ≠ [] := by
  cases cs with
  | nil => simp [listSplit]
  | cons c rest =>
    by_cases h : c = sep
    · simp [listSplit, h]
    · simp only [listSplit, if_neg h]
      cases listSplit sep rest <;> simp

theorem listSplit_append (sep : Char) (xs ys : List Char) :
    listSplit sep (xs ++ sep :: ys) = listSplit sep xs ++ listSplit sep ys := by
  induction xs with
  | nil => simp [listSplit]
  | cons c rest ih =>
    by_cases h : c = sep
    · simp [listSplit, h, ih]
    · simp only [List.cons_append, listSplit, if_neg h]
      cases hsp : listSplit sep rest with
      | nil => exact absurd hsp (listSplit_ne_nil sep rest)
      | cons g gs =>
        simp only [List.append_eq]
        rw [ih, hsp]
        simp

theorem listSplit_of_not_mem (sep : Char) (cs : List Char) (h : sep ∉ cs) :
    listSplit sep cs = [cs] := by
  induction cs with
  | nil => rfl
  | cons c rest ih =>
    have hc : ¬ c = sep := fun he => h (he ▸ List.mem_cons_self c rest)
    have hr : sep ∉ rest := fun hm => h (List.mem_cons_of_mem c hm)
    simp only [listSplit, if_neg hc, ih hr]

theorem dropCR_of_getLast (l : List Char) (h : l.getLast? ≠ some '\r') : dropCR l = l := by
  simp [dropCR, h]

theorem dropWhile_head_false (p : Char → Bool) (l : List Char) :
    ∀ x, (l.dropWhile p).head? = some x → p x = false := by
  induction l with
  | nil => intro x hx; cases hx
  | cons a m ih =>
    intro x hx
    by_cases h : p a
    · rw [List.dropWhile_cons_of_pos h] at hx
      exact ih x hx
    · rw [List.dropWhile_cons_of_neg h] at hx
      injection hx with hx
      subst hx
      simpa using h

theorem goTrim_last_not_space (l : List Char) (h : goTrim l = l) :
    ∀ c, l.getLast? = some c → isGoSpace c = false := by
  intro c hc
  have h2 : (l.dropWhile isGoSpace).reverse.dropWhile isGoSpace = l.reverse := by
    have h3 := congrArg List.reverse h
    unfold goTrim at h3
    rwa [List.reverse_reverse] at h3
  have hhead : l.reverse.head? = some c := by
    rw [List.head?_reverse]; exact hc
  rw [← h2] at hhead
  exact dropWhile_head_false _ _ c hhead

theorem flatten_terminated_ne_nil (lines : List (List Char)) (h : lines ≠ []) :
    ((lines.map (fun l => l ++ ['\n'])).flatten) ≠ [] := by
  cases lines with
  | nil => exact absurd rfl h
  | cons l rest =>
    simp

theorem flatten_terminated_getLast (lines : List (List Char)) (h : lines ≠ []) :
    ((lines.map (fun l => l ++ ['\n'])).flatten).getLast? = some '\n' := by
  induction lines with
  | nil => exact absurd rfl h
  | cons l rest ih =>
    by_cases hr : rest = []
    · subst hr
      simp only [List.map_cons, List.map_nil, List.flatten_cons, List.flatten_nil,
        List.append_nil]
      rw [List.getLast?_append_of_ne_nil _ (by simp : ['\n'] ≠ ([] : List Char))]
      rfl
    · simp only [List.map_cons, List.flatten_cons]
      rw [List.getLast?_append_of_ne_nil _ (flatten_terminated_ne_nil rest hr)]
      exact ih hr

theorem goLines_terminated (lines : List (List Char))
    (hnl : ∀ l ∈ lines, ('\n') ∉ l)
    (hcr : ∀ l ∈ lines, l.getLast? ≠ some '\r') :
    goLines ((lines.map (fun l => l ++ ['\n'])).flatten) = lines := by
  induction lines with
  | nil => rfl
  | cons l rest ih =>
    have hlnl : ('\n') ∉ l := hnl l (List.mem_cons_self _ _)
    have hlcr : l.getLast? ≠ some '\r' := hcr l (List.mem_cons_self _ _)
    have hsplit : listSplit '\n' ((((l :: rest).map (fun l => l ++ ['\n'])).flatten)) =
        l :: listSplit '\n' ((rest.map (fun l => l ++ ['\n'])).flatten) := by
      simp only [List.map_cons, List.flatten_cons, List.append_assoc, List.singleton_append]
      rw [listSplit_append, listSplit_of_not_mem _ _ hlnl]
      rfl
    have hne : (((l :: rest).map (fun l => l ++ ['\n'])).flatten) ≠ [] :=
      flatten_terminated_ne_nil _ (by simp)
    have hlast : (((l :: rest).map (fun l => l ++ ['\n'])).flatten).getLast? = some '\n' :=
      flatten_terminated_getLast _ (by simp)
    unfold goLines
    rw [if_neg hne, if_pos hlast, hsplit]
    by_cases hr : rest = []
    · subst hr
      show ((l :: listSplit '\n' []).map dropCR).dropLast = [l]
      simp only [listSplit, List.map_cons, List.map_nil]
      simp [List.dropLast, dropCR_of_getLast l hlcr]
    · have hrne : ((rest.map (fun l => l ++ ['\n'])).flatten) ≠ [] :=
        flatten_terminated_ne_nil rest hr
      have hrlast : ((rest.map (fun l => l ++ ['\n'])).flatten).getLast? = some '\n' :=
        flatten_terminated_getLast rest hr
      have hihr := ih (fun x hx => hnl x (List.mem_cons_of_mem _ hx))
        (fun x hx => hcr x (List.mem_cons_of_mem _ hx))
      unfold goLines at hihr
      rw [if_neg hrne, if_pos hrlast] at hihr
      have hmapne : (listSplit '\n' ((rest.map (fun l => l ++ ['\n'])).flatten)).map dropCR ≠ [] := by
        intro hmn
        exact listSplit_ne_nil _ _ (List.map_eq_nil_iff.mp hmn)
      rw [List.map_cons, List.dropLast_cons_of_ne_nil hmapne, hihr,
        dropCR_of_getLast l hlcr]

theorem propsEncode_data (props : List (String × String)) :
    (propsEncode props).data =
      ((props.map (fun kv => kv.1.data ++ '=' :: kv.2.data)).map (fun l => l ++ ['\n'])).flatten := by
  induction props with
  | nil => rfl
  | cons kv rest ih =>
    obtain ⟨k, v⟩ := kv
    have hdata : (propsEncode ((k, v) :: rest)).data =
        (((k.data ++ ['=']) ++ v.data) ++ ['\n']) ++ (propsEncode rest).data := rfl
    rw [hdata, ih]
    simp

theorem takeWhile_all_append (p : Char → Bool) (xs : List Char) (y : Char) (ys : List Char)
    (hx : ∀ x ∈ xs, p x = true) (hy : p y = false) :
    ((xs ++ y :: ys).takeWhile p) = xs := by
  induction xs with
  | nil => simp [List.takeWhile, hy]
  | cons a m ih =>
    have ha : p a = true := hx a (List.mem_cons_self _ _)
    simp only [List.cons_append, List.takeWhile_cons, ha, if_pos]
    rw [ih (fun x hm => hx x (List.mem_cons_of_mem _ hm))]

theorem drop_append_cons (xs : List Char) (y : Char) (ys : List Char) :
    (xs ++ y :: ys).drop (xs.length + 1) = ys := by
  induction xs with
  | nil => simp
  | cons a m ih => simpa using ih

theorem parsePropLine_encode (m : List (String × String)) (k v : String)
    (hk : k ≠ "") (he : '=' ∉ k.data)
    (htk : goTrim k.data = k.data) (htv : goTrim v.data = v.data) :
    parsePropLine m (k.data ++ '=' :: v.data) = setF m k v := by
  unfold parsePropLine
  have htw : (k.data ++ '=' :: v.data).takeWhile (fun c => c != '=') = k.data := by
    refine takeWhile_all_append _ _ _ _ ?_ (by simp)
    intro x hx
    have : x ≠ '=' := fun hxe => he (hxe ▸ hx)
    simpa using this
  rw [htw]
  have hk0 : k.data.length ≠ 0 := by
    intro h0
    exact hk (congrArg String.mk (List.length_eq_zero.mp h0))
  have hcond : ¬ (k.data.length = 0 ∨ k.data.length = (k.data ++ '=' :: v.data).length) := by
    simp only [List.length_append, List.length_cons]
    omega
  rw [if_neg (by simpa using hcond)]
  rw [drop_append_cons, htk, htv]

theorem lookupF_append_none {α : Type} (m m2 : List (String × α)) (key : String)
    (h1 : lookupF m key = none) : lookupF (m ++ m2) key = lookupF m2 key := by
  induction m with
  | nil => rfl
  | cons p rest ih =>
    obtain ⟨a, b⟩ := p
    by_cases ha : a = key
    · simp [lookupF, ha] at h1
    · simp only [List.cons_append, lookupF, if_neg ha] at *
      exact ih h1

theorem foldl_parsePropLine (props : List (String × String)) :
    ∀ m, (∀ kv ∈ props, lookupF m kv.1 = none) →
      (props.map (fun kv => kv.1)).Nodup →
      (∀ kv ∈ props, kv.1 ≠ "" ∧ '=' ∉ kv.1.data ∧
        goTrim kv.1.data = kv.1.data ∧ goTrim kv.2.data = kv.2.data) →
      (props.map (fun kv => kv.1.data ++ '=' :: kv.2.data)).foldl parsePropLine m = m ++ props := by
  induction props with
  | nil => intro m _ _ _; simp
  | cons kv rest ih =>
    intro m hfresh hnd hcond
    obtain ⟨k, v⟩ := kv
    obtain ⟨hk, he, htk, htv⟩ := hcond (k, v) (List.mem_cons_self _ _)
    have hfk : lookupF m k = none := hfresh (k, v) (List.mem_cons_self _ _)
    simp only [List.map_cons, List.foldl_cons]
    rw [parsePropLine_encode m k v hk he htk htv, setF_of_lookup_none v hfk]
    have hnd2 : (rest.map (fun kv => kv.1)).Nodup := (List.nodup_cons.mp hnd).2
    have hknotin : k ∉ rest.map (fun kv => kv.1) := (List.nodup_cons.mp hnd).1
    rw [ih (m ++ [(k, v)]) ?_ hnd2 (fun kv hm => hcond kv (List.mem_cons_of_mem _ hm))]
    · simp
    · intro kv hm
      have h1 : lookupF m kv.1 = none := hfresh kv (List.mem_cons_of_mem _ hm)
      have h2 : kv.1 ≠ k := by
        intro he2
        exact hknotin (he2 ▸ List.mem_map_of_mem (fun q => q.1) hm)
      rw [lookupF_append_none _ _ _ h1]
      have h3 : k ≠ kv.1 := Ne.symm h2
      simp [lookupF, h3]

theorem strSplitOn_single (n : String) (h : '/' ∉ n.data) : strSplitOn n '/' = [n] := by
  unfold strSplitOn
  rw [listSplit_of_not_mem _ _ h]
  rfl

theorem strSplitOn_append_seg (base n : String) (h : '/' ∉ n.data) :
    strSplitOn (base ++ "/" ++ n) '/' = strSplitOn base '/' ++ [n] := by
  unfold strSplitOn
  have hdata : (base ++ "/" ++ n).data = base.data ++ '/' :: n.data := by
    show (base.data ++ ['/']) ++ n.data = base.data ++ '/' :: n.data
    simp
  rw [hdata, listSplit_append, listSplit_of_not_mem _ _ h]
  simp

theorem notSkip_clean (n : String) (h : skipName n = false) : specialSegment n = false := by
  unfold skipName at h
  unfold specialSegment
  simp only [Bool.or_eq_false_iff] at h ⊢
  exact ⟨⟨h.1.2, h.1.1.2⟩, h.2⟩

theorem relOf_parts_clean (base n : String) (hns : skipName n = false) (hnslash : '/' ∉ n.data)
    (hbase : ∀ part ∈ strSplitOn base '/', specialSegment part = false) :
    ∀ part ∈ strSplitOn (relOf base n) '/', specialSegment part = false := by
  unfold relOf
  by_cases hb : base = ""
  · rw [if_pos hb, strSplitOn_single n hnslash]
    intro part hp
    rcases List.mem_cons.mp hp with heq | hp2
    · exact heq ▸ notSkip_clean n hns
    · cases hp2
  · rw [if_neg hb, strSplitOn_append_seg base n hnslash]
    intro part hp
    rcases List.mem_append.mp hp with hp1 | hp2
    · exact hbase part hp1
    · rcases List.mem_cons.mp hp2 with heq | hp3
      · exact heq ▸ notSkip_clean n hns
      · cases hp3

theorem walkList_parts (pre : String) (base : String) (nodes : List FNode) :
    wfNodes nodes = true →
    (∀ part ∈ strSplitOn base '/', specialSegment part = false) →
    ∀ k ∈ walkList pre base nodes, ∀ part ∈ strSplitOn k '/', specialSegment part = false := by
  induction base, nodes using walkList.induct pre with
  | case1 base =>
    intro _ _ k hk
    rw [walkList] at hk
    cases hk
  | case2 base n rest hskip =>
    intro _ _ k hk
    rw [walkList, if_pos hskip] at hk
    cases hk
  | case3 base n rest hskip ih =>
    intro hwf hbase k hk
    simp only [wfNodes, Bool.and_eq_true] at hwf
    obtain ⟨hwfn, hwfr⟩ := hwf
    have hns : skipName n = false := by
      cases h2 : skipName n
      · rfl
      · exact absurd h2 hskip
    have hnslash : '/' ∉ n.data := by
      intro hm
      have hcc : strContainsChar n '/' = true := by
        simpa [strContainsChar] using hm
      simp [hcc] at hwfn
    rw [walkList, if_neg hskip] at hk
    rcases List.mem_append.mp hk with hk1 | hk2
    · by_cases hv : pre = "" ∨ strHasPre (relOf base n) pre = true
      · rw [if_pos hv] at hk1
        rcases List.mem_cons.mp hk1 with rfl | hk3
        · exact relOf_parts_clean base n hns hnslash hbase
        · cases hk3
      · rw [if_neg hv] at hk1
        cases hk1
    · exact ih hwfr hbase k hk2
  | case4 base n children rest ihc ihr =>
    intro hwf hbase k hk
    simp only [wfNodes, Bool.and_eq_true] at hwf
    obtain ⟨⟨hwfn, hwfc⟩, hwfr⟩ := hwf
    rw [walkList] at hk
    rcases List.mem_append.mp hk with hk1 | hk2
    · by_cases hsn : skipName n = true
      · rw [if_pos hsn] at hk1
        cases hk1
      · rw [if_neg hsn] at hk1
        have hns : skipName n = false := by
          cases h2 : skipName n
          · rfl
          · exact absurd h2 hsn
        have hnslash : '/' ∉ n.data := by
          intro hm
          have hcc : strContainsChar n '/' = true := by
            simpa [strContainsChar] using hm
          simp [hcc] at hwfn
        by_cases hvia : pre.length < (relOf base n).length ∧ ¬ strHasPre (relOf base n) pre = true
        · rw [if_pos hvia] at hk1
          cases hk1
        · rw [if_neg hvia] at hk1
          exact ihc hwfc (relOf_parts_clean base n hns hnslash hbase) k hk1
    · exact ihr hwfr hbase k hk2

/-! Theorems settling the claims. -/

/-- C2: the claim reads `CleanupHistoriesByTime` as deleting every snapshot
whose parsed (nanosecond) name is below the nanosecond cutoff now - maxAge.
The source computes the cutoff as `timex.Now().Add(-maxAge).Unix()`, i.e.
in Unix seconds, and compares it against nanosecond-valued names, so a
year-old snapshot survives a one-day retention limit: with now
2024-01-01T00:00:00Z (ns), maxAge one day, and a snapshot named with the
nanosecond timestamp of 2023-01-01T00:00:00Z, the snapshot parses below
the claimed cutoff yet the store is returned unchanged. -/
theorem c2_cleanup_time_unit_mismatch :
    goParseInt "1672531200000000000" = some 1672531200000000000 ∧
    (1672531200000000000 : Int) < 1704067200000000000 - 86400000000000 ∧
    cleanupHistoriesByTime
        ⟨[("k", "v")], [("k", ⟨[("1672531200000000000", "old")], []⟩)]⟩
        "k" 86400000000000 1704067200000000000 =
      (.ok (), ⟨[("k", "v")], [("k", ⟨[("1672531200000000000", "old")], []⟩)]⟩) := by
  refine ⟨by decide, by decide, by decide⟩

/-- C6 (counterexample): `GetNextVersion` tests the `head` revision before
validating the key, so on an invalid key with revision `head` it returns
the not-found error instead of the key-validation error. -/
theorem c6_counterexample :
    validateKey "" = some (GoErr.newErr "invalid key: must not empty") ∧
    getNextVersion ⟨[], []⟩ "" "head" =
      .error (.wrapErr "no next version found" .notExistErr) ∧
    GoErr.wrapErr "no next version found" GoErr.notExistErr ≠
      GoErr.newErr "invalid key: must not empty" := by
  refine ⟨by decide, by decide, by decide⟩

/-- C6 (amended): every key-taking operation of the public API returns the
key-validation error unchanged and leaves the store untouched when the key
is syntactically invalid — except `GetNextVersion` with revision
`head`/`HEAD`, which returns its not-found error without validating the
key.  Since every conclusion holds for every store, the result depends on
the key alone: no filesystem I/O is observable. -/
theorem c6_validate_before_io (s : Store) (key : String) (e : GoErr)
    (h : validateKey key = some e) :
    get s key = .error e ∧
    (∀ ver, getByVersion s key ver = .error e) ∧
    (∀ v ts, setWithTimestamp s key v ts = (.error e, s)) ∧
    (∀ v now, set s key v now = (.error e, s)) ∧
    (∀ ver meta now, setMeta s key ver meta now = (.error e, s)) ∧
    (∀ ver meta now, updateMeta s key ver meta now = (.error e, s)) ∧
    (∀ rh, deleteKey s key rh = (.error e, s)) ∧
    existsKey s key = .error e ∧
    getHistories s key = .error e ∧
    getLastVersion s key = .error e ∧
    (∀ rev, getPrevVersion s key rev = .error e) ∧
    (∀ rev, rev ≠ "head" → rev ≠ "HEAD" → getNextVersion s key rev = .error e) ∧
    (∀ maxAge now, cleanupHistoriesByTime s key maxAge now = (.error e, s)) ∧
    (∀ n, cleanupHistoriesByCount s key n = (.error e, s)) ∧
    (∀ rev, (rev = "head" ∨ rev = "HEAD") →
      getNextVersion s key rev = .error (.wrapErr "no next version found" .notExistErr)) := by
  refine ⟨?_, ?_, ?_, ?_, ?_, ?_, ?_, ?_, ?_, ?_, ?_, ?_, ?_, ?_, ?_⟩
  · simp [get, h]
  · intro ver
    by_cases hv : ver = "head" ∨ ver = "HEAD"
    · simp [getByVersion, hv, get, h]
    · simp [getByVersion, hv, h]
  · intro v ts; simp [setWithTimestamp, h]
  · intro v now; simp [set, setWithTimestamp, h]
  · intro ver meta now; simp [setMeta, h]
  · intro ver meta now; simp [updateMeta, h]
  · intro rh; simp [deleteKey, h]
  · simp [existsKey, h]
  · simp [getHistories, h]
  · simp [getLastVersion, h]
  · intro rev; simp [getPrevVersion, h]
  · intro rev h1 h2
    have : ¬ (rev = "head" ∨ rev = "HEAD") := by
      intro hc; cases hc <;> contradiction
    simp [getNextVersion, this, h]
  · intro maxAge now; simp [cleanupHistoriesByTime, h]
  · intro n; simp [cleanupHistoriesByCount, h]
  · intro rev hrev; simp [getNextVersion, hrev]

/-- C6 (witness): the amended statement applied to the empty key on the
empty store. -/
theorem c6_validate_before_io_witness :
    validateKey "" = some (GoErr.newErr "invalid key: must not empty") ∧
    (get ⟨[], []⟩ "" = .error (GoErr.newErr "invalid key: must not empty") ∧
      (∀ ver, getByVersion ⟨[], []⟩ "" ver =
        .error (GoErr.newErr "invalid key: must not empty")) ∧
      (∀ v ts, setWithTimestamp ⟨[], []⟩ "" v ts =
        (.error (GoErr.newErr "invalid key: must not empty"), ⟨[], []⟩)) ∧
      (∀ v now, set ⟨[], []⟩ "" v now =
        (.error (GoErr.newErr "invalid key: must not empty"), ⟨[], []⟩)) ∧
      (∀ ver meta now, setMeta ⟨[], []⟩ "" ver meta now =
        (.error (GoErr.newErr "invalid key: must not empty"), ⟨[], []⟩)) ∧
      (∀ ver meta now, updateMeta ⟨[], []⟩ "" ver meta now =
        (.error (GoErr.newErr "invalid key: must not empty"), ⟨[], []⟩)) ∧
      (∀ rh, deleteKey ⟨[], []⟩ "" rh =
        (.error (GoErr.newErr "invalid key: must not empty"), ⟨[], []⟩)) ∧
      existsKey ⟨[], []⟩ "" = .error (GoErr.newErr "invalid key: must not empty") ∧
      getHistories ⟨[], []⟩ "" = .error (GoErr.newErr "invalid key: must not empty") ∧
      getLastVersion ⟨[], []⟩ "" = .error (GoErr.newErr "invalid key: must not empty") ∧
      (∀ rev, getPrevVersion ⟨[], []⟩ "" rev =
        .error (GoErr.newErr "invalid key: must not empty")) ∧
      (∀ rev, rev ≠ "head" → rev ≠ "HEAD" → getNextVersion ⟨[], []⟩ "" rev =
        .error (GoErr.newErr "invalid key: must not empty")) ∧
      (∀ maxAge now, cleanupHistoriesByTime ⟨[], []⟩ "" maxAge now =
        (.error (GoErr.newErr "invalid key: must not empty"), ⟨[], []⟩)) ∧
      (∀ n, cleanupHistoriesByCount ⟨[], []⟩ "" n =
        (.error (GoErr.newErr "invalid key: must not empty"), ⟨[], []⟩)) ∧
      (∀ rev, (rev = "head" ∨ rev = "HEAD") →
        getNextVersion ⟨[], []⟩ "" rev =
          .error (.wrapErr "no next version found" .notExistErr))) :=
  ⟨by decide, c6_validate_before_io ⟨[], []⟩ "" (GoErr.newErr "invalid key: must not empty")
    (by decide)⟩

/-- C1: from any state where the key is valid and the live value differs
from `v` (or is absent), the first `Set(k, v)` returns a non-empty version
and adds exactly one snapshot to the history traversal, and an immediately
following `Set(k, v)` with the same bytes returns the empty version and
leaves the whole store unchanged (hence the history count unchanged). -/
theorem c1_set_twice_identical_one_snapshot (s : Store) (key : String) (v : Value)
    (t1 t2 : Int) (hk : validateKey key = none) (hch : lookupF s.live key ≠ some v) :
    ∃ ver s1, setWithTimestamp s key v t1 = (.ok ver, s1) ∧ ver ≠ "" ∧
      (histEntries (getHist s1 key)).length = (histEntries (getHist s key)).length + 1 ∧
      setWithTimestamp s1 key v t2 = (.ok "", s1) := by
  set d := getHist s key with hd
  set name := findFreeName (statNames d) (intToStr t1) with hname
  set d2 : HistDir := { d with files := setF d.files name v } with hd2
  set s1 : Store := { live := setF s.live key v, hist := setF s.hist key d2 } with hs1
  have hrun1 : setWithTimestamp s key v t1 = (.ok (intToStr t1), s1) := by
    cases hl : lookupF s.live key with
    | none =>
      simp only [setWithTimestamp, hk, hl]
      rfl
    | some e =>
      have hev : e ≠ v := fun hev2 => hch (hl.trans (congrArg some hev2))
      have he : (e != v) = true := bne_iff_ne.mpr hev
      simp only [setWithTimestamp, hk, hl, he]
      rfl
  refine ⟨intToStr t1, s1, hrun1, intToStr_ne_empty t1, ?_, ?_⟩
  · have hfresh : name ∉ statNames d := findFreeName_not_mem _ _
    have hfiles : name ∉ d.files.map (fun f => f.1) := by
      intro hmem
      exact hfresh (by simp [statNames]; exact Or.inl (by simpa using hmem))
    have hnone : lookupF d.files name = none := lookupF_eq_none_of_not_mem hfiles
    have happ : setF d.files name v = d.files ++ [(name, v)] := setF_of_lookup_none v hnone
    have hgh : getHist s1 key = d2 := by
      simp [getHist, hs1, lookupF_setF_self]
    rw [hgh]
    have hsnap : isSnapName name = true := by
      rw [hname]; exact isSnapName_findFreeName _ _
    simp only [histEntries, hd2, happ]
    simp [dirEntries_length, List.filter_append, hsnap]
    omega
  · have hl2 : lookupF s1.live key = some v := by
      simp [hs1, lookupF_setF_self]
    have hsetid : setF s1.live key v = s1.live := setF_of_lookup_some hl2
    simp only [setWithTimestamp, hk, hl2, bne_self_eq_false]
    simp only [Bool.false_eq_true, if_false, hsetid]

/-- C1 (witness): the theorem applied to a fresh key on the empty store. -/
theorem c1_set_twice_identical_one_snapshot_witness :
    validateKey "k" = none ∧
    lookupF (Store.live ⟨[], []⟩) "k" ≠ some "a" ∧
    (∃ ver s1, setWithTimestamp ⟨[], []⟩ "k" "a" 1000 = (.ok ver, s1) ∧ ver ≠ "" ∧
      (histEntries (getHist s1 "k")).length =
        (histEntries (getHist ⟨[], []⟩ "k")).length + 1 ∧
      setWithTimestamp s1 "k" "a" 2000 = (.ok "", s1)) :=
  ⟨by decide, by decide,
    c1_set_twice_identical_one_snapshot ⟨[], []⟩ "k" "a" 1000 2000 (by decide) (by decide)⟩

/-- C3 (counterexample): with a snapshot named `100` already present and a
changed value, `SetWithTimestamp(_, _, 100)` writes the snapshot under
`100_1` but returns `100`: the returned version is not the chosen filename
with its collision suffix, contrary to the claim. -/
theorem c3_counterexample :
    (setWithTimestamp ⟨[], [("k", ⟨[("100", "w")], []⟩)]⟩ "k" "v" 100).1 = .ok "100" ∧
    (setWithTimestamp ⟨[], [("k", ⟨[("100", "w")], []⟩)]⟩ "k" "v" 100).2.hist =
      [("k", ⟨[("100", "w"), ("100_1", "v")], []⟩)] ∧
    ("100" : String) ≠ "100_1" := by
  refine ⟨by decide, by decide, by decide⟩

/-- C3 (amended): when the value changed, the snapshot is written under the
first free name among `ts`, `ts_1`, `ts_2`, …, but the returned version is
always the bare timestamp string, without the collision suffix. -/
theorem c3_first_free_name_bare_version_returned (s : Store) (key : String) (v : Value)
    (ts : Int) (hk : validateKey key = none) (hch : lookupF s.live key ≠ some v) :
    ∃ j : Nat,
      (∀ i, i < j → candName (intToStr ts) i ∈ statNames (getHist s key)) ∧
      candName (intToStr ts) j ∉ statNames (getHist s key) ∧
      setWithTimestamp s key v ts =
        (.ok (intToStr ts),
          { live := setF s.live key v,
            hist := setF s.hist key
              { files := setF (getHist s key).files (candName (intToStr ts) j) v,
                subdirs := (getHist s key).subdirs } }) := by
  obtain ⟨j, hj1, hj2, hj3⟩ := findFreeName_spec (statNames (getHist s key)) (intToStr ts)
  refine ⟨j, hj1, hj2, ?_⟩
  cases hl : lookupF s.live key with
  | none =>
    simp only [setWithTimestamp, hk, hl]
    rw [show findFreeName (statNames (getHist { live := setF s.live key v, hist := s.hist } key))
        (intToStr ts) = candName (intToStr ts) j from hj3]
    rfl
  | some e =>
    have hev : e ≠ v := fun hev2 => hch (hl.trans (congrArg some hev2))
    have he : (e != v) = true := bne_iff_ne.mpr hev
    simp only [setWithTimestamp, hk, hl, he]
    rw [show findFreeName (statNames (getHist { live := setF s.live key v, hist := s.hist } key))
        (intToStr ts) = candName (intToStr ts) j from hj3]
    rfl

/-- C3 (witness): the amended statement applied to the state of the
counterexample. -/
theorem c3_first_free_name_bare_version_returned_witness :
    validateKey "k" = none ∧
    lookupF (Store.live ⟨[], [("k", ⟨[("100", "w")], []⟩)]⟩) "k" ≠ some "v" ∧
    (∃ j : Nat,
      (∀ i, i < j →
        candName (intToStr 100) i ∈
          statNames (getHist ⟨[], [("k", ⟨[("100", "w")], []⟩)]⟩ "k")) ∧
      candName (intToStr 100) j ∉
        statNames (getHist ⟨[], [("k", ⟨[("100", "w")], []⟩)]⟩ "k") ∧
      setWithTimestamp ⟨[], [("k", ⟨[("100", "w")], []⟩)]⟩ "k" "v" 100 =
        (.ok (intToStr 100),
          { live := setF (Store.live ⟨[], [("k", ⟨[("100", "w")], []⟩)]⟩) "k" "v",
            hist := setF (Store.hist ⟨[], [("k", ⟨[("100", "w")], []⟩)]⟩) "k"
              { files := setF (getHist ⟨[], [("k", ⟨[("100", "w")], []⟩)]⟩ "k").files
                  (candName (intToStr 100) j) "v",
                subdirs := (getHist ⟨[], [("k", ⟨[("100", "w")], []⟩)]⟩ "k").subdirs } })) :=
  ⟨by decide, by decide,
    c3_first_free_name_bare_version_returned ⟨[], [("k", ⟨[("100", "w")], []⟩)]⟩ "k" "v" 100
      (by decide) (by decide)⟩

/-- C5 (counterexample): a history whose only snapshot is named `0` has an
integer-parsing version name, yet `GetLastVersion` reports not-found,
because the fold's not-found sentinel is the value 0 itself. -/
theorem c5_counterexample :
    goParseInt "0" = some 0 ∧
    getLastVersion ⟨[("k", "x")], [("k", ⟨[("0", "x")], []⟩)]⟩ "k" =
      .error (.wrapErr "no history found for key k" .notExistErr) := by
  refine ⟨by decide, by decide⟩

/-- C5 (amended): when some snapshot name parses to a positive integer,
`GetLastVersion` succeeds and its `Version` field is the maximum of the
parsed integers over all snapshots (non-parsing names are ignored); when no
name parses to a positive integer — even if some parse to zero or below —
it signals not-found. -/
theorem c5_last_version_is_positive_max (s : Store) (key : String)
    (hk : validateKey key = none) :
    ((∃ e ∈ histEntries (getHist s key), ∃ n : Int,
        goParseInt e.version = some n ∧ 0 < n) →
      ∃ v m, getLastVersion s key = .ok v ∧ v.version = intToStr m ∧
        (∃ e ∈ histEntries (getHist s key), goParseInt e.version = some m) ∧
        (∀ e ∈ histEntries (getHist s key), ∀ n, goParseInt e.version = some n → n ≤ m)) ∧
    ((∀ e ∈ histEntries (getHist s key), ∀ n, goParseInt e.version = some n → n ≤ 0) →
      getLastVersion s key =
        .error (.wrapErr ("no history found for key " ++ key) .notExistErr)) := by
  obtain ⟨h1, h2, h3⟩ := lastVerFold_spec (histEntries (getHist s key))
  constructor
  · rintro ⟨e, he, n, hn, hnpos⟩
    have hmax : 0 < (lastVerFold (histEntries (getHist s key))).1 :=
      lt_of_lt_of_le hnpos (h2 e he n hn)
    have hne : ¬ (lastVerFold (histEntries (getHist s key))).1 = 0 := by omega
    obtain ⟨v, hok1, hok2⟩ : ∃ v, getLastVersion s key = .ok v ∧
        v.version = intToStr (lastVerFold (histEntries (getHist s key))).1 := by
      simp only [getLastVersion, hk]
      rw [if_neg hne]
      exact ⟨_, rfl, rfl⟩
    refine ⟨v, (lastVerFold (histEntries (getHist s key))).1, hok1, hok2, ?_, h2⟩
    rcases h3 with h3 | h3
    · exact absurd h3 hne
    · exact h3
  · intro hall
    have hz : (lastVerFold (histEntries (getHist s key))).1 = 0 := by
      rcases h3 with h3 | ⟨e, he, hn⟩
      · exact h3
      · have := hall e he _ hn
        omega
    simp only [getLastVersion, hk]
    rw [if_pos hz]

/-- C5 (witness): the amended statement on a history holding snapshots
named 1000 and 999. -/
theorem c5_last_version_is_positive_max_witness :
    validateKey "k" = none ∧
    (((∃ e ∈ histEntries (getHist ⟨[("k", "x")],
          [("k", ⟨[("1000", "a"), ("999", "b")], []⟩)]⟩ "k"), ∃ n : Int,
        goParseInt e.version = some n ∧ 0 < n) →
      ∃ v m, getLastVersion ⟨[("k", "x")],
          [("k", ⟨[("1000", "a"), ("999", "b")], []⟩)]⟩ "k" = .ok v ∧
        v.version = intToStr m ∧
        (∃ e ∈ histEntries (getHist ⟨[("k", "x")],
          [("k", ⟨[("1000", "a"), ("999", "b")], []⟩)]⟩ "k"),
          goParseInt e.version = some m) ∧
        (∀ e ∈ histEntries (getHist ⟨[("k", "x")],
          [("k", ⟨[("1000", "a"), ("999", "b")], []⟩)]⟩ "k"),
          ∀ n, goParseInt e.version = some n → n ≤ m)) ∧
    ((∀ e ∈ histEntries (getHist ⟨[("k", "x")],
          [("k", ⟨[("1000", "a"), ("999", "b")], []⟩)]⟩ "k"),
        ∀ n, goParseInt e.version = some n → n ≤ 0) →
      getLastVersion ⟨[("k", "x")],
          [("k", ⟨[("1000", "a"), ("999", "b")], []⟩)]⟩ "k" =
        .error (.wrapErr ("no history found for key " ++ "k") .notExistErr))) :=
  ⟨by decide,
    c5_last_version_is_positive_max
      ⟨[("k", "x")], [("k", ⟨[("1000", "a"), ("999", "b")], []⟩)]⟩ "k" (by decide)⟩

/-- C9 (counterexample): with the cache already holding byte-identical
content for the key, the cached `Set` returns the empty version without
calling the wrapped store (third component false) and without touching
any state, so not every `Set` call delegates. -/
theorem c9_counterexample :
    cachedSet ⟨⟨[("k", "v")], []⟩, [("k", "v")]⟩ "k" "v" 999 =
      (.ok "", ⟨⟨[("k", "v")], []⟩, [("k", "v")]⟩, false) := by decide

/-- C9 (amended): `SetWithTimestamp` always delegates to the wrapped store
and mirrors its result, overwriting the cache entry exactly when the
returned version is non-empty (after which a cached `Get` serves the new
bytes) and leaving the cache untouched on the empty version or an error;
`Set` behaves the same except that a cache hit with byte-identical content
returns the empty version immediately without delegating. -/
theorem c9_cached_set_delegation (c : CachedStore) (key : String) (value : Value) (ts now : Int) :
    (∀ r s2, setWithTimestamp c.store key value ts = (r, s2) →
      (cachedSetWithTimestamp c key value ts).2.2 = true ∧
      (cachedSetWithTimestamp c key value ts).1 = r ∧
      (cachedSetWithTimestamp c key value ts).2.1.store = s2 ∧
      ((r = .ok "" ∨ ∃ e, r = .error e) →
        (cachedSetWithTimestamp c key value ts).2.1.cache = c.cache) ∧
      (∀ ver, r = .ok ver → ver ≠ "" →
        (cachedSetWithTimestamp c key value ts).2.1.cache = setF c.cache key value ∧
        (cachedGet (cachedSetWithTimestamp c key value ts).2.1 key).1 = .ok value)) ∧
    (lookupF c.cache key = some value →
      cachedSet c key value now = (.ok "", c, false)) ∧
    (lookupF c.cache key ≠ some value →
      cachedSet c key value now = cachedSetWithTimestamp c key value now) := by
  refine ⟨?_, ?_, ?_⟩
  · intro r s2 h
    cases r with
    | error e =>
      have heq : cachedSetWithTimestamp c key value ts = (.error e, ⟨s2, c.cache⟩, true) := by
        simp only [cachedSetWithTimestamp, h]
      rw [heq]
      refine ⟨rfl, rfl, rfl, fun _ => rfl, ?_⟩
      intro ver hver
      cases hver
    | ok ver =>
      by_cases hv : ver = ""
      · subst hv
        have heq : cachedSetWithTimestamp c key value ts = (.ok "", ⟨s2, c.cache⟩, true) := by
          simp only [cachedSetWithTimestamp, h]
          rfl
        rw [heq]
        refine ⟨rfl, rfl, rfl, fun _ => rfl, ?_⟩
        intro ver2 hver2 hne
        injection hver2 with hver2
        exact absurd hver2.symm hne
      · have heq : cachedSetWithTimestamp c key value ts =
            (.ok ver, ⟨s2, setF c.cache key value⟩, true) := by
          simp only [cachedSetWithTimestamp, h, if_neg hv]
        rw [heq]
        refine ⟨rfl, rfl, rfl, ?_, ?_⟩
        · rintro (hok | ⟨e, he⟩)
          · injection hok with hok; exact absurd hok hv
          · cases he
        · intro ver2 hver2 hne
          refine ⟨rfl, ?_⟩
          simp only [cachedGet, lookupF_setF_self]
  · intro hhit
    simp only [cachedSet, hhit]
    rfl
  · intro hmiss
    cases hl : lookupF c.cache key with
    | none => simp only [cachedSet, cachedSetWithTimestamp, hl, set]
    | some v =>
      have hvne : v ≠ value := fun he => hmiss (hl.trans (congrArg some he))
      simp only [cachedSet, cachedSetWithTimestamp, hl, if_neg hvne, set]

/-- C9 (witness): the cache-hit fast path of the amended statement at a
concrete cached store. -/
theorem c9_cached_set_delegation_witness :
    lookupF ([("k", "v")] : List (String × Value)) "k" = some "v" ∧
    cachedSet ⟨⟨[("k", "v")], []⟩, [("k", "v")]⟩ "k" "v" 7 =
      (.ok "", ⟨⟨[("k", "v")], []⟩, [("k", "v")]⟩, false) :=
  ⟨by decide,
    (c9_cached_set_delegation ⟨⟨[("k", "v")], []⟩, [("k", "v")]⟩ "k" "v" 5 7).2.1 (by decide)⟩

/-- C10: writing a property map with the properties codec and reading the
file back returns the original map, provided keys are non-empty, free of
`=`, and keys and values contain no newline and no leading or trailing
whitespace (formalised as Go TrimSpace being the identity on them). -/
theorem c10_props_round_trip (props : List (String × String))
    (hnd : (props.map (fun kv => kv.1)).Nodup)
    (hcond : ∀ kv ∈ props, kv.1 ≠ "" ∧ '=' ∉ kv.1.data ∧ '\n' ∉ kv.1.data ∧
      '\n' ∉ kv.2.data ∧ goTrim kv.1.data = kv.1.data ∧ goTrim kv.2.data = kv.2.data) :
    propsDecode (propsEncode props) = props := by
  unfold propsDecode
  rw [propsEncode_data]
  have hnl : ∀ l ∈ props.map (fun kv => kv.1.data ++ '=' :: kv.2.data), ('\n') ∉ l := by
    intro l hl
    obtain ⟨kv, hkv, rfl⟩ := List.mem_map.mp hl
    obtain ⟨_, _, hnlk, hnlv, _, _⟩ := hcond kv hkv
    intro hmem
    rcases List.mem_append.mp hmem with hm | hm
    · exact hnlk hm
    · rcases List.mem_cons.mp hm with he | hm2
      · exact absurd he (by decide)
      · exact hnlv hm2
  have hcr : ∀ l ∈ props.map (fun kv => kv.1.data ++ '=' :: kv.2.data),
      l.getLast? ≠ some '\r' := by
    intro l hl
    obtain ⟨kv, hkv, rfl⟩ := List.mem_map.mp hl
    obtain ⟨_, _, _, _, _, htv⟩ := hcond kv hkv
    intro hlast
    rw [List.getLast?_append_of_ne_nil _ (by simp)] at hlast
    cases hv : kv.2.data with
    | nil =>
      rw [hv] at hlast
      exact absurd hlast (by decide)
    | cons c t =>
      rw [hv] at hlast
      rw [getLast?_cons_of_ne (by simp : (c :: t) ≠ [])] at hlast
      have := goTrim_last_not_space kv.2.data htv '\r' (by rw [hv]; exact hlast)
      exact absurd this (by decide)
  rw [goLines_terminated _ hnl hcr]
  have hfold := foldl_parsePropLine props [] (fun kv _ => rfl) hnd
    (fun kv hm => by
      obtain ⟨h1, h2, _, _, h5, h6⟩ := hcond kv hm
      exact ⟨h1, h2, h5, h6⟩)
  simpa using hfold

/-- C10 (witness): the round trip on a two-entry map whose second value
contains an interior `=`. -/
theorem c10_props_round_trip_witness :
    ((([("a", "b"), ("c", "d=e")] : List (String × String)).map (fun kv => kv.1)).Nodup ∧
      (∀ kv ∈ ([("a", "b"), ("c", "d=e")] : List (String × String)),
        kv.1 ≠ "" ∧ '=' ∉ kv.1.data ∧ '\n' ∉ kv.1.data ∧
        '\n' ∉ kv.2.data ∧ goTrim kv.1.data = kv.1.data ∧ goTrim kv.2.data = kv.2.data)) ∧
    propsDecode (propsEncode [("a", "b"), ("c", "d=e")]) = [("a", "b"), ("c", "d=e")] :=
  ⟨⟨by decide, by decide⟩, c10_props_round_trip _ (by decide) (by decide)⟩

/-- C8: no key returned by `ListKeys`, for any prefix and any well-formed
root tree, contains a path segment that starts with `.` or `p_` or ends
with `.h`; in particular nothing under the `.history` directory is ever
listed. -/
theorem c8_list_keys_no_special_segments (rootName : String) (children : List FNode) (pre : String)
    (hwf : wfNodes children = true) :
    ∀ k ∈ listKeys rootName children pre, ∀ part ∈ strSplitOn k '/',
      specialSegment part = false := by
  intro k hk
  unfold listKeys at hk
  split at hk
  · cases hk
  · refine walkList_parts pre "" children hwf ?_ k hk
    intro part hp
    rcases List.mem_cons.mp hp with rfl | hp2
    · decide
    · cases hp2


/-- C8 (witness): the theorem applied to a concrete tree holding a plain
file, a subdirectory, a `.history` directory and a stray page-named file. -/
theorem c8_list_keys_no_special_segments_witness :
    wfNodes [FNode.file "a", FNode.dir "d" [FNode.file "b"],
      FNode.dir ".history" [FNode.file "x"], FNode.file "p_stray"] = true ∧
    (∀ k ∈ listKeys "root" [FNode.file "a", FNode.dir "d" [FNode.file "b"],
        FNode.dir ".history" [FNode.file "x"], FNode.file "p_stray"] "",
      ∀ part ∈ strSplitOn k '/', specialSegment part = false) :=
  ⟨by simp [wfNodes, strContainsChar],
    c8_list_keys_no_special_segments "root"
      [FNode.file "a", FNode.dir "d" [FNode.file "b"],
        FNode.dir ".history" [FNode.file "x"], FNode.file "p_stray"] ""
      (by simp [wfNodes, strContainsChar])⟩


theorem charsLt_trans : ∀ (a b c : List Char),
    charsLt a b = true → charsLt b c = true → charsLt a c = true := by
  intro a
  induction a with
  | nil =>
    intro b c hab hbc
    cases b with
    | nil => cases hab
    | cons x xs =>
      cases c with
      | nil => cases hbc
      | cons y ys => rfl
  | cons x xs ih =>
    intro b c hab hbc
    cases b with
    | nil => cases hab
    | cons y ys =>
      cases c with
      | nil => cases hbc
      | cons z zs =>
        simp only [charsLt] at hab hbc ⊢
        by_cases hxy : x < y
        · by_cases hyz : y < z
          · rw [if_pos (lt_trans hxy hyz)]
          · rw [if_neg hyz] at hbc
            by_cases hzy : z < y
            · rw [if_pos hzy] at hbc; cases hbc
            · have hyez : y = z := le_antisymm (le_of_not_lt hzy) (le_of_not_lt hyz)
              rw [if_pos (hyez ▸ hxy)]
        · rw [if_neg hxy] at hab
          by_cases hyx : y < x
          · rw [if_pos hyx] at hab; cases hab
          · rw [if_neg hyx] at hab
            have hxey : x = y := le_antisymm (le_of_not_lt hyx) (le_of_not_lt hxy)
            subst hxey
            by_cases hxz : x < z
            · rw [if_pos hxz]
            · rw [if_neg hxz] at hbc ⊢
              by_cases hzx : z < x
              · rw [if_pos hzx] at hbc; cases hbc
              · rw [if_neg hzx] at hbc ⊢
                exact ih ys zs hab hbc

theorem charsLt_conn : ∀ (a b : List Char),
    charsLt a b = false → charsLt b a = false → a = b := by
  intro a
  induction a with
  | nil =>
    intro b hab _
    cases b with
    | nil => rfl
    | cons y ys => cases hab
  | cons x xs ih =>
    intro b hab hba
    cases b with
    | nil => cases hba
    | cons y ys =>
      simp only [charsLt] at hab hba
      by_cases hxy : x < y
      · rw [if_pos hxy] at hab; cases hab
      · rw [if_neg hxy] at hab
        by_cases hyx : y < x
        · rw [if_pos hyx] at hba; cases hba
        · rw [if_neg hyx] at hab
          rw [if_neg hyx, if_neg hxy] at hba
          have hxey : x = y := le_antisymm (le_of_not_lt hyx) (le_of_not_lt hxy)
          rw [hxey, ih ys hab hba]

theorem charsLt_irrefl : ∀ (a : List Char), charsLt a a = false := by
  intro a
  induction a with
  | nil => rfl
  | cons x xs ih =>
    simp only [charsLt, if_neg (lt_irrefl x)]
    exact ih

theorem strLe_total (a b : String) : strLe a b = true ∨ strLe b a = true := by
  unfold strLe
  by_cases h : strLt b a = true
  · right
    have hab : strLt a b = false := by
      cases hab : strLt a b
      · rfl
      · exfalso
        have h1 := charsLt_trans _ _ _ hab h
        rw [charsLt_irrefl] at h1
        cases h1
    simp [strLt] at hab
    simp [strLt, hab]
  · left
    simp at h
    simp [h]

theorem strLe_trans (a b c : String) (h1 : strLe a b = true) (h2 : strLe b c = true) :
    strLe a c = true := by
  unfold strLe strLt at *
  simp only [Bool.not_eq_eq_eq_not, Bool.not_true] at h1 h2 ⊢
  cases hca : charsLt c.data a.data
  · rfl
  · exfalso
    cases hab : charsLt a.data b.data
    · have hdata : a.data = b.data := charsLt_conn _ _ hab h1
      rw [hdata] at hca
      rw [hca] at h2
      cases h2
    · have hcb := charsLt_trans _ _ _ hca hab
      rw [hcb] at h2
      cases h2

theorem strLe_antisymm (a b : String) (h1 : strLe a b = true) (h2 : strLe b a = true) :
    a = b := by
  unfold strLe strLt at h1 h2
  simp only [Bool.not_eq_eq_eq_not, Bool.not_true] at h1 h2
  have := charsLt_conn a.data b.data h2 h1
  cases a with
  | mk da =>
    cases b with
    | mk db => exact congrArg String.mk this

theorem lookupF_removeF_self {α : Type} (m : List (String × α)) (k : String) :
    lookupF (removeF m k) k = none := by
  induction m with
  | nil => rfl
  | cons p rest ih =>
    obtain ⟨a, b⟩ := p
    by_cases h : a = k
    · simpa [removeF, h] using ih
    · simpa [removeF, h, lookupF] using ih

theorem lookupF_removeF_of_none {α : Type} (m : List (String × α)) (k k2 : String)
    (h : lookupF m k = none) : lookupF (removeF m k2) k = none := by
  induction m with
  | nil => rfl
  | cons p rest ih =>
    obtain ⟨a, b⟩ := p
    by_cases ha : a = k
    · simp [lookupF, ha] at h
    · by_cases h2 : a = k2
      · simp only [lookupF, if_neg ha] at h
        simpa [removeF, h2] using ih h
      · simp only [lookupF, if_neg ha] at h
        have := ih h
        simpa [removeF, h2, lookupF, ha] using this

theorem lookupF_some_mem {α : Type} {m : List (String × α)} {k : String} {v : α}
    (h : lookupF m k = some v) : (k, v) ∈ m := by
  induction m with
  | nil => cases h
  | cons p rest ih =>
    obtain ⟨a, b⟩ := p
    by_cases ha : a = k
    · simp only [lookupF, if_pos ha] at h
      injection h with h
      subst ha h
      exact List.mem_cons_self _ _
    · simp only [lookupF, if_neg ha] at h
      exact List.mem_cons_of_mem _ (ih h)

theorem mem_setF {α : Type} {m : List (String × α)} {k : String} {w : α} :
    ∀ q ∈ setF m k w, q ∈ m ∨ q = (k, w) := by
  induction m with
  | nil =>
    intro q hq
    rcases List.mem_cons.mp hq with rfl | hq2
    · exact Or.inr rfl
    · cases hq2
  | cons p rest ih =>
    obtain ⟨a, b⟩ := p
    intro q hq
    by_cases ha : a = k
    · simp only [setF, if_pos ha] at hq
      rcases List.mem_cons.mp hq with rfl | hq2
      · exact Or.inr rfl
      · exact Or.inl (List.mem_cons_of_mem _ hq2)
    · simp only [setF, if_neg ha] at hq
      rcases List.mem_cons.mp hq with rfl | hq2
      · exact Or.inl (List.mem_cons_self _ _)
      · rcases ih q hq2 with h | h
        · exact Or.inl (List.mem_cons_of_mem _ h)
        · exact Or.inr h

theorem setF_map_fst_of_some {α : Type} {m : List (String × α)} {k : String} {v : α} (w : α)
    (h : lookupF m k = some v) : (setF m k w).map (fun q => q.1) = m.map (fun q => q.1) := by
  induction m with
  | nil => cases h
  | cons p rest ih
  =>
    obtain ⟨a, b⟩ := p
    by_cases ha : a = k
    · simp [setF, ha]
    · simp only [lookupF, if_neg ha] at h
      simp [setF, ha, ih h]

theorem metaNames_removeF (files : List (String × Value)) (nm : String)
    (h : strHasSuf nm ".meta" = false) : metaNames (removeF files nm) = metaNames files := by
  unfold metaNames removeF
  rw [List.filter_filter]
  congr 1
  apply List.filter_congr
  intro f _
  by_cases hsuf : strHasSuf f.1 ".meta" = true
  · have : (f.1 != nm) = true := by
      have hne : f.1 ≠ nm := by
        intro he
        rw [he] at hsuf
        rw [hsuf] at h
        cases h
      simpa using hne
    simp [hsuf, this]
  · simp only [Bool.not_eq_true] at hsuf
    simp [hsuf]

theorem map_filter_exchange {α β : Type} (g : α → β) (p : β → Bool) (l : List α) :
    (l.map g).filter p = (l.filter (fun x => p (g x))).map g := by
  induction l with
  | nil => rfl
  | cons a l ih =>
    by_cases h : p (g a) = true
    · simp [List.filter_cons, h, ih]
    · simp only [Bool.not_eq_true] at h
      simp [List.filter_cons, h, ih]

theorem dirEntries_keys (pre : String) (files : List (String × Value)) :
    (dirEntries pre files).map (fun e => (e.path, e.version)) =
      (files.filter (fun f => isSnapName f.1)).map
        (fun f => ((if pre = "" then f.1 else pre ++ "/" ++ f.1), f.1)) := by
  unfold dirEntries
  rw [List.map_map]
  rfl

theorem filter_isSnap_removeF (files : List (String × Value)) (nm : String) :
    (removeF files nm).filter (fun f => isSnapName f.1) =
      ((files.filter (fun f => isSnapName f.1)).filter (fun f => f.1 != nm)) := by
  unfold removeF
  exact List.filter_comm _ _ _

theorem keys_removeF_snap (pre : String) (files : List (String × Value)) (nm : String) :
    (dirEntries pre (removeF files nm)).map (fun e => (e.path, e.version)) =
      ((dirEntries pre files).map (fun e => (e.path, e.version))).filter
        (fun x => x.2 != nm) := by
  rw [dirEntries_keys, dirEntries_keys, filter_isSnap_removeF, map_filter_exchange]

theorem strHasPre_ne_empty {s : String} (h : strHasPre s "p_" = true) : s ≠ "" := by
  intro he
  rw [he] at h
  exact absurd h (by decide)

theorem slash_mem_qualify (p n : String) : '/' ∈ (p ++ "/" ++ n).data := by
  have : (p ++ "/" ++ n).data = (p.data ++ ['/']) ++ n.data := rfl
  rw [this]
  simp

theorem qualify_ne_plain (p n m : String) (hm : ('/') ∉ m.data) : p ++ "/" ++ n ≠ m := by
  intro he
  exact hm (he ▸ slash_mem_qualify p n)

theorem qualify_cancel {p a b : String} (h : p ++ "/" ++ a = p ++ "/" ++ b) : a = b := by
  have hd : (p.data ++ ['/']) ++ a.data = (p.data ++ ['/']) ++ b.data := congrArg String.data h
  have := List.append_cancel_left hd
  cases a with
  | mk da =>
    cases b with
    | mk db => exact congrArg String.mk this

theorem qualify_inj {p1 n1 p2 n2 : String} (hp1 : ('/') ∉ p1.data) (hn1 : ('/') ∉ n1.data)
    (hp2 : ('/') ∉ p2.data) (hn2 : ('/') ∉ n2.data)
    (h : p1 ++ "/" ++ n1 = p2 ++ "/" ++ n2) : p1 = p2 ∧ n1 = n2 := by
  have h1 := congrArg (fun s => strSplitOn s '/') h
  simp only [strSplitOn_append_seg p1 n1 hn1, strSplitOn_append_seg p2 n2 hn2,
    strSplitOn_single p1 hp1, strSplitOn_single p2 hp2] at h1
  have h2 : p1 = p2 ∧ n1 = n2 := by
    injection h1 with ha hb
    injection hb with hc
    exact ⟨ha, hc⟩
  exact h2

theorem strHasSuf_append_self (v suf : String) : strHasSuf (v ++ suf) suf = true := by
  unfold strHasSuf
  rw [List.isPrefixOf_iff_prefix]
  have : (v ++ suf).data = v.data ++ suf.data := rfl
  rw [this, List.reverse_append]
  exact List.prefix_append _ _

theorem slash_not_mem_append_meta {v : String} (hv : ('/') ∉ v.data) :
    ('/') ∉ (v ++ ".meta").data := by
  have : (v ++ ".meta").data = v.data ++ ".meta".data := rfl
  rw [this]
  intro hmem
  rcases List.mem_append.mp hmem with h | h
  · exact hv h
  · exact absurd h (by decide)

theorem pagesKeys_cons (q : String × List (String × Value))
    (rest : List (String × List (String × Value))) :
    pagesKeys (q :: rest) =
      (if strHasPre q.1 "p_" = true then
        (dirEntries q.1 q.2).map (fun e => (e.path, e.version)) else []) ++ pagesKeys rest := by
  unfold pagesKeys
  by_cases h : strHasPre q.1 "p_" = true
  · simp [List.filter_cons, h]
  · simp only [Bool.not_eq_true] at h
    simp [List.filter_cons, h]

theorem mem_keys_shape {pre : String} {files : List (String × Value)} (hpre : pre ≠ "")
    {x : String × String} (hx : x ∈ (dirEntries pre files).map (fun e => (e.path, e.version))) :
    ∃ f ∈ files, isSnapName f.1 = true ∧ x = (pre ++ "/" ++ f.1, f.1) := by
  rw [dirEntries_keys] at hx
  rcases List.mem_map.mp hx with ⟨f, hf, hfx⟩
  rcases List.mem_filter.mp hf with ⟨hmem, hsnap⟩
  refine ⟨f, hmem, hsnap, ?_⟩
  rw [← hfx, if_neg hpre]

theorem mem_keys_default {files : List (String × Value)} {x : String × String}
    (hx : x ∈ (dirEntries "" files).map (fun e => (e.path, e.version))) :
    ∃ f ∈ files, isSnapName f.1 = true ∧ x = (f.1, f.1) := by
  rw [dirEntries_keys] at hx
  rcases List.mem_map.mp hx with ⟨f, hf, hfx⟩
  rcases List.mem_filter.mp hf with ⟨hmem, hsnap⟩
  refine ⟨f, hmem, hsnap, ?_⟩
  rw [← hfx, if_pos rfl]

theorem mem_pagesKeys {sds : List (String × List (String × Value))} {x : String × String}
    (hx : x ∈ pagesKeys sds) :
    ∃ q ∈ sds, strHasPre q.1 "p_" = true ∧
      ∃ f ∈ q.2, isSnapName f.1 = true ∧ x = (q.1 ++ "/" ++ f.1, f.1) := by
  induction sds with
  | nil => cases hx
  | cons q rest ih =>
    rw [pagesKeys_cons] at hx
    rcases List.mem_append.mp hx with h | h
    · by_cases hq : strHasPre q.1 "p_" = true
      · rw [if_pos hq] at h
        rcases mem_keys_shape (strHasPre_ne_empty hq) h with ⟨f, hf, hsnap, hfx⟩
        exact ⟨q, List.mem_cons_self _ _, hq, f, hf, hsnap, hfx⟩
      · rw [if_neg hq] at h
        cases h
    · rcases ih h with ⟨q2, hq2, hpre2, f, hf, hsnap, hfx⟩
      exact ⟨q2, List.mem_cons_of_mem _ hq2, hpre2, f, hf, hsnap, hfx⟩

theorem entryKeys_decomp (d : HistDir) :
    entryKeys d =
      pagesKeys d.subdirs ++ (dirEntries "" d.files).map (fun e => (e.path, e.version)) := by
  unfold entryKeys histEntries pagesKeys
  rw [List.map_append, List.map_flatten, List.map_map]
  rfl

theorem isSnapName_not_meta {n : String} (h : isSnapName n = true) :
    strHasSuf n ".meta" = false := by
  cases hs : strHasSuf n ".meta"
  · rfl
  · exfalso
    unfold isSnapName at h
    rw [hs] at h
    simp at h

theorem lookupF_setF_ne {α : Type} (m : List (String × α)) {k k2 : String} (v : α)
    (h : k2 ≠ k) : lookupF (setF m k v) k2 = lookupF m k2 := by
  induction m with
  | nil =>
    show lookupF [(k, v)] k2 = none
    rw [lookupF, if_neg (fun he : k = k2 => h he.symm)]
    rfl
  | cons p rest ih =>
    obtain ⟨a, b⟩ := p
    by_cases ha : a = k
    · subst ha
      rw [setF, if_pos rfl, lookupF, lookupF,
        if_neg (fun he : a = k2 => h he.symm), if_neg (fun he : a = k2 => h he.symm)]
    · rw [setF, if_neg ha, lookupF, lookupF]
      by_cases ha2 : a = k2
      · rw [if_pos ha2, if_pos ha2]
      · rw [if_neg ha2, if_neg ha2]
        exact ih

theorem lookupF_removeF_ne {α : Type} (m : List (String × α)) {k k2 : String}
    (h : k2 ≠ k) : lookupF (removeF m k) k2 = lookupF m k2 := by
  induction m with
  | nil => rfl
  | cons p rest ih =>
    obtain ⟨a, b⟩ := p
    by_cases ha : a = k
    · subst ha
      have hbne : (a != a) = false := by simp
      show lookupF (List.filter _ ((a, b) :: rest)) k2 = _
      rw [List.filter_cons, hbne, if_neg (by simp : ¬false = true), lookupF,
        if_neg (fun he : a = k2 => h (he.symm.trans rfl))]
      exact ih
    · have hbne : (a != k) = true := by simpa using ha
      show lookupF (List.filter _ ((a, b) :: rest)) k2 = _
      rw [List.filter_cons, hbne, if_pos rfl, lookupF, lookupF]
      by_cases ha2 : a = k2
      · rw [if_pos ha2, if_pos ha2]
      · rw [if_neg ha2, if_neg ha2]
        exact ih

theorem pagesKeys_cons2 (qn : String) (qf : List (String × Value))
    (rest : List (String × List (String × Value))) :
    pagesKeys ((qn, qf) :: rest) =
      (if strHasPre qn "p_" = true then
        (dirEntries qn qf).map (fun e => (e.path, e.version)) else []) ++ pagesKeys rest :=
  pagesKeys_cons (qn, qf) rest

theorem pagesKeys_setF_removeF (sds : List (String × List (String × Value)))
    (p nm : String) (files2 : List (String × Value))
    (hnd : (sds.map (fun q => q.1)).Nodup)
    (hlk : lookupF sds p = some files2)
    (hn : ∀ q ∈ sds, ('/') ∉ q.1.data ∧ ∀ f ∈ q.2, ('/') ∉ f.1.data)
    (hnm : ('/') ∉ nm.data) :
    pagesKeys (setF sds p (removeF files2 nm)) =
      (pagesKeys sds).filter (fun x => x.1 != p ++ "/" ++ nm) := by
  induction sds with
  | nil => cases hlk
  | cons q rest ih =>
    obtain ⟨qn, qf⟩ := q
    have hq1 : ('/') ∉ qn.data := (hn (qn, qf) (List.mem_cons_self _ _)).1
    have hq2 : ∀ f ∈ qf, ('/') ∉ f.1.data := (hn (qn, qf) (List.mem_cons_self _ _)).2
    have hnd2 : (rest.map (fun q => q.1)).Nodup := (List.nodup_cons.mp hnd).2
    have hq_not : qn ∉ rest.map (fun q => q.1) := (List.nodup_cons.mp hnd).1
    have hn2 : ∀ q ∈ rest, ('/') ∉ q.1.data ∧ ∀ f ∈ q.2, ('/') ∉ f.1.data :=
      fun q hq => hn q (List.mem_cons_of_mem _ hq)
    by_cases hq : qn = p
    · subst hq
      have hf2 : qf = files2 := by
        rw [lookupF, if_pos rfl] at hlk
        exact Option.some.inj hlk
      subst hf2
      rw [setF, if_pos rfl, pagesKeys_cons2, pagesKeys_cons2, List.filter_append]
      have htail : List.filter (fun x => x.1 != qn ++ "/" ++ nm) (pagesKeys rest) =
          pagesKeys rest := by
        apply List.filter_eq_self.mpr
        intro x hx
        rcases mem_pagesKeys hx with ⟨q2, hq2m, hpre2, f, hfm, hsnap, rfl⟩
        have hq2n : ('/') ∉ q2.1.data := (hn2 q2 hq2m).1
        have hfn : ('/') ∉ f.1.data := (hn2 q2 hq2m).2 f hfm
        have hne : q2.1 ++ "/" ++ f.1 ≠ qn ++ "/" ++ nm := by
          intro hc
          rcases qualify_inj hq2n hfn hq1 hnm hc with ⟨hq2eq, _⟩
          exact hq_not (hq2eq ▸ List.mem_map_of_mem (fun q => q.1) hq2m)
        exact bne_iff_ne.mpr hne
      rw [htail]
      congr 1
      by_cases hpre : strHasPre qn "p_" = true
      · rw [if_pos hpre, if_pos hpre, keys_removeF_snap]
        apply List.filter_congr
        intro x hx
        rcases mem_keys_shape (strHasPre_ne_empty hpre) hx with ⟨f, hf, hsnap, rfl⟩
        by_cases he : f.1 = nm
        · rw [he]
          simp
        · have hne : qn ++ "/" ++ f.1 ≠ qn ++ "/" ++ nm := fun hc => he (qualify_cancel hc)
          rw [bne_iff_ne.mpr he, bne_iff_ne.mpr hne]
      · rw [if_neg hpre, if_neg hpre]
        rfl
    · have hlk2 : lookupF rest p = some files2 := by
        rw [lookupF, if_neg hq] at hlk
        exact hlk
      have hpn : ('/') ∉ p.data := (hn2 (p, files2) (lookupF_some_mem hlk2)).1
      rw [setF, if_neg hq, pagesKeys_cons2, pagesKeys_cons2, List.filter_append,
        ih hnd2 hlk2 hn2]
      congr 1
      by_cases hpre : strHasPre qn "p_" = true
      · rw [if_pos hpre]
        symm
        apply List.filter_eq_self.mpr
        intro x hx
        rcases mem_keys_shape (strHasPre_ne_empty hpre) hx with ⟨f, hfm, hsnap, rfl⟩
        have hfn : ('/') ∉ f.1.data := hq2 f hfm
        have hne : qn ++ "/" ++ f.1 ≠ p ++ "/" ++ nm := by
          intro hc
          rcases qualify_inj hq1 hfn hpn hnm hc with ⟨hqe, _⟩
          exact hq hqe
        exact bne_iff_ne.mpr hne
      · rw [if_neg hpre]
        rfl

theorem entryKeys_removeFileAt_plain (d : HistDir) (nm : String) (hnm : ('/') ∉ nm.data) :
    entryKeys (removeFileAt d nm) = (entryKeys d).filter (fun x => x.1 != nm) := by
  have hstep : removeFileAt d nm = { d with files := removeF d.files nm } := by
    unfold removeFileAt
    rw [strSplitOn_single nm hnm]
  rw [hstep, entryKeys_decomp, entryKeys_decomp, List.filter_append]
  congr 1
  · symm
    apply List.filter_eq_self.mpr
    intro x hx
    rcases mem_pagesKeys hx with ⟨q2, hq2m, hpre2, f, hfm, hsnap, rfl⟩
    exact bne_iff_ne.mpr (qualify_ne_plain q2.1 f.1 nm hnm)
  · rw [keys_removeF_snap]
    apply List.filter_congr
    intro x hx
    rcases mem_keys_default hx with ⟨f, hfm, hsnap, rfl⟩
    rfl

theorem entryKeys_removeFileAt_page (d : HistDir) (p nm : String)
    (hp : ('/') ∉ p.data) (hnm : ('/') ∉ nm.data)
    (hnd : (d.subdirs.map (fun q => q.1)).Nodup)
    (hn : ∀ q ∈ d.subdirs, ('/') ∉ q.1.data ∧ ∀ f ∈ q.2, ('/') ∉ f.1.data)
    (hfl : ∀ f ∈ d.files, ('/') ∉ f.1.data) :
    entryKeys (removeFileAt d (p ++ "/" ++ nm)) =
      (entryKeys d).filter (fun x => x.1 != p ++ "/" ++ nm) := by
  have hsplit : strSplitOn (p ++ "/" ++ nm) '/' = [p, nm] := by
    rw [strSplitOn_append_seg p nm hnm, strSplitOn_single p hp]
    rfl
  cases hlk : lookupF d.subdirs p with
  | none =>
    have hstep : removeFileAt d (p ++ "/" ++ nm) = d := by
      unfold removeFileAt
      rw [hsplit]
      simp [hlk]
    rw [hstep]
    symm
    apply List.filter_eq_self.mpr
    intro x hx
    rw [entryKeys_decomp] at hx
    rcases List.mem_append.mp hx with h | h
    · rcases mem_pagesKeys h with ⟨q2, hq2m, hpre2, f, hfm, hsnap, rfl⟩
      have hq2n := (hn q2 hq2m).1
      have hfn := (hn q2 hq2m).2 f hfm
      have hne : q2.1 ++ "/" ++ f.1 ≠ p ++ "/" ++ nm := by
        intro hc
        rcases qualify_inj hq2n hfn hp hnm hc with ⟨hq2e, _⟩
        rw [lookupF_eq_none_iff] at hlk
        exact hlk q2 hq2m hq2e
      exact bne_iff_ne.mpr hne
    · rcases mem_keys_default h with ⟨f, hfm, hsnap, rfl⟩
      exact bne_iff_ne.mpr (fun hc => qualify_ne_plain p nm f.1 (hfl f hfm) hc.symm)
  | some files2 =>
    have hstep : removeFileAt d (p ++ "/" ++ nm) =
        { d with subdirs := setF d.subdirs p (removeF files2 nm) } := by
      unfold removeFileAt
      rw [hsplit]
      simp [hlk]
    rw [hstep, entryKeys_decomp, entryKeys_decomp, List.filter_append,
      pagesKeys_setF_removeF d.subdirs p nm files2 hnd hlk hn hnm]
    congr 1
    symm
    apply List.filter_eq_self.mpr
    intro x hx
    rcases mem_keys_default hx with ⟨f, hfm, hsnap, rfl⟩
    exact bne_iff_ne.mpr (fun hc => qualify_ne_plain p nm f.1 (hfl f hfm) hc.symm)

theorem wfHistDir_removeFileAt (d : HistDir) (path : String) (hwf : wfHistDir d) :
    wfHistDir (removeFileAt d path) := by
  unfold wfHistDir at hwf ⊢
  obtain ⟨hfl, hnd, hn⟩ := hwf
  unfold removeFileAt
  cases hsp : strSplitOn path '/' with
  | nil => exact ⟨hfl, hnd, hn⟩
  | cons f t =>
    cases t with
    | nil =>
      refine ⟨?_, hnd, hn⟩
      intro f2 hf2
      exact hfl f2 (List.mem_filter.mp hf2).1
    | cons g t2 =>
      cases t2 with
      | nil =>
        cases hlk : lookupF d.subdirs f with
        | none =>
          simp only [hlk]
          exact ⟨hfl, hnd, hn⟩
        | some files2 =>
          simp only [hlk]
          refine ⟨hfl, ?_, ?_⟩
          · rw [setF_map_fst_of_some (removeF files2 g) hlk]
            exact hnd
          · intro q hq
            rcases mem_setF q hq with hmem | heq
            · exact hn q hmem
            · subst heq
              refine ⟨(hn (f, files2) (lookupF_some_mem hlk)).1, ?_⟩
              intro f2 hf2
              exact (hn (f, files2) (lookupF_some_mem hlk)).2 f2 (List.mem_filter.mp hf2).1
      | cons h3 t3 => exact ⟨hfl, hnd, hn⟩

theorem mem_dirEntries {pre : String} {files : List (String × Value)} {e : HEntry}
    (he : e ∈ dirEntries pre files) :
    ∃ f ∈ files, isSnapName f.1 = true ∧ e.version = f.1 ∧
      e.path = (if pre = "" then f.1 else pre ++ "/" ++ f.1) := by
  unfold dirEntries at he
  rcases List.mem_map.mp he with ⟨f, hf, rfl⟩
  rcases List.mem_filter.mp hf with ⟨hmem, hsnap⟩
  exact ⟨f, hmem, hsnap, rfl, rfl⟩

theorem mem_histEntries {d : HistDir} {e : HEntry} (he : e ∈ histEntries d) :
    (∃ q ∈ d.subdirs, strHasPre q.1 "p_" = true ∧ e ∈ dirEntries q.1 q.2) ∨
      e ∈ dirEntries "" d.files := by
  unfold histEntries at he
  rcases List.mem_append.mp he with h | h
  · rcases List.mem_flatten.mp h with ⟨l, hl, hel⟩
    rcases List.mem_map.mp hl with ⟨q, hq, rfl⟩
    rcases List.mem_filter.mp hq with ⟨hqm, hpre⟩
    exact Or.inl ⟨q, hqm, hpre, hel⟩
  · exact Or.inr h

theorem histEntries_good {d : HistDir} (hwf : wfHistDir d) :
    ∀ e ∈ histEntries d, goodEntry e := by
  unfold wfHistDir at hwf
  obtain ⟨hfl, hnd, hn⟩ := hwf
  intro e he
  unfold goodEntry
  rcases mem_histEntries he with ⟨q, hqm, hpre, hq⟩ | h
  · rcases mem_dirEntries hq with ⟨f, hfm, hsnap, hv, hp⟩
    refine ⟨hv ▸ isSnapName_not_meta hsnap, hv ▸ (hn q hqm).2 f hfm,
      Or.inr ⟨q.1, (hn q hqm).1, ?_⟩⟩
    rw [hp, if_neg (strHasPre_ne_empty hpre), hv]
  · rcases mem_dirEntries h with ⟨f, hfm, hsnap, hv, hp⟩
    refine ⟨hv ▸ isSnapName_not_meta hsnap, hv ▸ hfl f hfm, Or.inl ?_⟩
    rw [hp, if_pos rfl, hv]

theorem entryKeys_ne_plain_meta (d : HistDir) {mn : String}
    (hmn : ('/') ∉ mn.data) (hmeta : strHasSuf mn ".meta" = true) :
    ∀ x ∈ entryKeys d, (x.1 != mn) = true := by
  intro x hx
  rw [entryKeys_decomp] at hx
  rcases List.mem_append.mp hx with h | h
  · rcases mem_pagesKeys h with ⟨q2, hq2m, hpre2, f, hfm, hsnap, rfl⟩
    exact bne_iff_ne.mpr (qualify_ne_plain q2.1 f.1 mn hmn)
  · rcases mem_keys_default h with ⟨f, hfm, hsnap, rfl⟩
    refine bne_iff_ne.mpr ?_
    intro hc
    have h1 := isSnapName_not_meta hsnap
    have hc2 : f.1 = mn := hc
    rw [hc2, hmeta] at h1
    exact absurd h1 (by decide)

theorem entryKeys_ne_page_meta (d : HistDir) {p mn : String}
    (hp : ('/') ∉ p.data) (hmn : ('/') ∉ mn.data) (hmeta : strHasSuf mn ".meta" = true)
    (hn : ∀ q ∈ d.subdirs, ('/') ∉ q.1.data ∧ ∀ f ∈ q.2, ('/') ∉ f.1.data)
    (hfl : ∀ f ∈ d.files, ('/') ∉ f.1.data) :
    ∀ x ∈ entryKeys d, (x.1 != p ++ "/" ++ mn) = true := by
  intro x hx
  rw [entryKeys_decomp] at hx
  rcases List.mem_append.mp hx with h | h
  · rcases mem_pagesKeys h with ⟨q2, hq2m, hpre2, f, hfm, hsnap, rfl⟩
    refine bne_iff_ne.mpr ?_
    intro hc
    rcases qualify_inj (hn q2 hq2m).1 ((hn q2 hq2m).2 f hfm) hp hmn hc with ⟨_, hfe⟩
    have h1 := isSnapName_not_meta hsnap
    rw [hfe, hmeta] at h1
    exact absurd h1 (by decide)
  · rcases mem_keys_default h with ⟨f, hfm, hsnap, rfl⟩
    exact bne_iff_ne.mpr (fun hc => qualify_ne_plain p mn f.1 (hfl f hfm) hc.symm)

theorem wfHistDir_removeEntry (d : HistDir) (e : HEntry) (hwf : wfHistDir d) :
    wfHistDir (removeEntry d e) := by
  simp only [removeEntry]
  by_cases hm : e.hasMeta = true
  · rw [if_pos hm]
    exact wfHistDir_removeFileAt _ _ (wfHistDir_removeFileAt _ _ hwf)
  · rw [if_neg hm]
    exact wfHistDir_removeFileAt _ _ hwf

theorem entryKeys_removeEntry (d : HistDir) (e : HEntry)
    (hwf : wfHistDir d) (hg : goodEntry e) :
    entryKeys (removeEntry d e) = (entryKeys d).filter (fun x => x.1 != e.path) := by
  obtain ⟨hgm, hgv, hshape⟩ := hg
  have hwf2 := hwf
  unfold wfHistDir at hwf2
  obtain ⟨hfl, hnd, hn⟩ := hwf2
  simp only [removeEntry]
  rcases hshape with hdef | ⟨p, hpd, hpath⟩
  · have hpv : ('/') ∉ e.path.data := hdef ▸ hgv
    have h1 : entryKeys (removeFileAt d e.path) = (entryKeys d).filter (fun x => x.1 != e.path) :=
      entryKeys_removeFileAt_plain d e.path hpv
    by_cases hm : e.hasMeta = true
    · rw [if_pos hm]
      have hmn : ('/') ∉ (e.path ++ ".meta").data := slash_not_mem_append_meta hpv
      rw [entryKeys_removeFileAt_plain _ _ hmn, h1]
      apply List.filter_eq_self.mpr
      intro x hx
      exact entryKeys_ne_plain_meta d hmn (strHasSuf_append_self e.path ".meta") x
        (List.mem_filter.mp hx).1
    · rw [if_neg hm]
      exact h1
  · have h1 : entryKeys (removeFileAt d e.path) = (entryKeys d).filter (fun x => x.1 != e.path) := by
      rw [hpath]
      exact entryKeys_removeFileAt_page d p e.version hpd hgv hnd hn hfl
    by_cases hm : e.hasMeta = true
    · rw [if_pos hm]
      have hassoc : e.path ++ ".meta" = p ++ "/" ++ (e.version ++ ".meta") := by
        rw [hpath, String.append_assoc]
      have hwf1 := wfHistDir_removeFileAt d e.path hwf
      unfold wfHistDir at hwf1
      obtain ⟨hfl1, hnd1, hn1⟩ := hwf1
      rw [hassoc,
        entryKeys_removeFileAt_page (removeFileAt d e.path) p (e.version ++ ".meta")
          hpd (slash_not_mem_append_meta hgv) hnd1 hn1 hfl1, h1]
      apply List.filter_eq_self.mpr
      intro x hx
      exact entryKeys_ne_page_meta d hpd (slash_not_mem_append_meta hgv)
        (strHasSuf_append_self e.version ".meta") hn hfl x (List.mem_filter.mp hx).1
    · rw [if_neg hm]
      exact h1

theorem readFileAt_removeFileAt_self (d : HistDir) (q : String) :
    readFileAt (removeFileAt d q) q = none := by
  unfold removeFileAt readFileAt
  cases hsp : strSplitOn q '/' with
  | nil => rfl
  | cons f t =>
    cases t with
    | nil => exact lookupF_removeF_self _ _
    | cons g t2 =>
      cases t2 with
      | nil =>
        cases hlk : lookupF d.subdirs f with
        | none => simp [hlk]
        | some files2 =>
          simp only [hlk, lookupF_setF_self]
          exact lookupF_removeF_self _ _
      | cons h3 t3 => rfl

theorem readFileAt_removeFileAt_none (d : HistDir) (q q2 : String)
    (h : readFileAt d q2 = none) : readFileAt (removeFileAt d q) q2 = none := by
  unfold removeFileAt
  cases hsp : strSplitOn q '/' with
  | nil => exact h
  | cons f t =>
    cases t with
    | nil =>
      unfold readFileAt at h ⊢
      cases hsp2 : strSplitOn q2 '/' with
      | nil => rfl
      | cons f2 t2 =>
        cases t2 with
        | nil =>
          rw [hsp2] at h
          exact lookupF_removeF_of_none _ _ _ h
        | cons g2 t3 =>
          cases t3 with
          | nil =>
            rw [hsp2] at h
            exact h
          | cons h4 t4 => rfl
    | cons g t2 =>
      cases t2 with
      | nil =>
        cases hlk : lookupF d.subdirs f with
        | none =>
          simp only [hlk]
          exact h
        | some files2 =>
          simp only [hlk]
          unfold readFileAt at h ⊢
          cases hsp2 : strSplitOn q2 '/' with
          | nil => rfl
          | cons f2 t3 =>
            cases t3 with
            | nil =>
              rw [hsp2] at h
              exact h
            | cons g2 t4 =>
              cases t4 with
              | nil =>
                rw [hsp2] at h
                simp only [] at h ⊢
                by_cases hf2 : f2 = f
                · subst hf2
                  rw [lookupF_setF_self]
                  rw [hlk] at h
                  exact lookupF_removeF_of_none _ _ _ h
                · rw [lookupF_setF_ne _ _ hf2]
                  exact h
              | cons h4 t5 => rfl
      | cons h3 t3 => exact h

theorem readFileAt_removeEntry_none (d : HistDir) (e : HEntry) {q2 : String}
    (h : readFileAt d q2 = none) : readFileAt (removeEntry d e) q2 = none := by
  simp only [removeEntry]
  by_cases hm : e.hasMeta = true
  · rw [if_pos hm]
    exact readFileAt_removeFileAt_none _ _ _ (readFileAt_removeFileAt_none _ _ _ h)
  · rw [if_neg hm]
    exact readFileAt_removeFileAt_none _ _ _ h

theorem readFileAt_foldl_removeEntry_none (l : List HEntry) (d : HistDir) {q2 : String}
    (h : readFileAt d q2 = none) : readFileAt (l.foldl removeEntry d) q2 = none := by
  induction l generalizing d with
  | nil => exact h
  | cons e l ih => exact ih _ (readFileAt_removeEntry_none d e h)

theorem readFileAt_removeEntry_self (d : HistDir) (e : HEntry) :
    readFileAt (removeEntry d e) e.path = none := by
  simp only [removeEntry]
  by_cases hm : e.hasMeta = true
  · rw [if_pos hm]
    exact readFileAt_removeFileAt_none _ _ _ (readFileAt_removeFileAt_self d e.path)
  · rw [if_neg hm]
    exact readFileAt_removeFileAt_self d e.path

theorem readFileAt_removeEntry_meta (d : HistDir) (e : HEntry) (hm : e.hasMeta = true) :
    readFileAt (removeEntry d e) (e.path ++ ".meta") = none := by
  simp only [removeEntry, if_pos hm]
  exact readFileAt_removeFileAt_self _ _

theorem goodEntry_path_inj {e1 e2 : HEntry} (h1 : goodEntry e1) (h2 : goodEntry e2)
    (h : e1.path = e2.path) : e1.version = e2.version := by
  obtain ⟨_, hv1, hs1⟩ := h1
  obtain ⟨_, hv2, hs2⟩ := h2
  rcases hs1 with hd1 | ⟨p1, hp1, he1⟩
  · rcases hs2 with hd2 | ⟨p2, hp2, he2⟩
    · rw [← hd1, ← hd2]
      exact h
    · exfalso
      rw [hd1, he2] at h
      exact qualify_ne_plain p2 e2.version e1.version hv1 h.symm
  · rcases hs2 with hd2 | ⟨p2, hp2, he2⟩
    · exfalso
      rw [he1, hd2] at h
      exact qualify_ne_plain p1 e1.version e2.version hv2 h
    · rw [he1, he2] at h
      exact (qualify_inj hp1 hv1 hp2 hv2 h).2

theorem foldl_removeEntry_keys (l : List HEntry) (d : HistDir)
    (hwf : wfHistDir d) (hg : ∀ e ∈ l, goodEntry e) :
    entryKeys (l.foldl removeEntry d) =
      (entryKeys d).filter (fun x => (l.map (fun e => e.path)).all (fun q => x.1 != q)) := by
  induction l generalizing d with
  | nil =>
    symm
    apply List.filter_eq_self.mpr
    intro x _
    rfl
  | cons e l ih =>
    rw [List.foldl_cons,
      ih (removeEntry d e) (wfHistDir_removeEntry d e hwf)
        (fun e2 he2 => hg e2 (List.mem_cons_of_mem _ he2)),
      entryKeys_removeEntry d e hwf (hg e (List.mem_cons_self _ _)),
      List.filter_filter]
    apply List.filter_congr
    intro x hx
    rw [List.map_cons, List.all_cons, Bool.and_comm]

theorem insertionSort_verLe_sorted (l : List HEntry) :
    List.Pairwise verLe (List.insertionSort verLe l) := by
  haveI htot : IsTotal HEntry verLe := ⟨fun a b => strLe_total a.version b.version⟩
  haveI htr : IsTrans HEntry verLe :=
    ⟨fun a b c h1 h2 => strLe_trans a.version b.version c.version h1 h2⟩
  exact List.sorted_insertionSort verLe l

/-- C4 (amended): for a valid key whose well-formed history directory holds
pairwise-distinct version names, more of them than the max count,
`CleanupHistoriesByCount` succeeds and stores the directory obtained by
removing, in sorted order, all but the last maxCount entries: exactly
maxCount snapshots survive, the surviving (path, version) listing is a
permutation of the kept tail of the byte-wise-ascending sort — so every
removed version sorts strictly below every survivor as a string, not by
numeric value — and each removed snapshot file, along with its `.meta`
companion when the traversal recorded one, is gone from the directory. -/
theorem c4_cleanup_count_keeps_latest (s : Store) (key : String) (maxCount : Nat) (d : HistDir)
    (hk : validateKey key = none) (hd : lookupF s.hist key = some d)
    (hwf : wfHistDir d)
    (hvers : ((histEntries d).map (fun e => e.version)).Nodup)
    (hlen : maxCount < (histEntries d).length) :
    let sorted := List.insertionSort verLe (histEntries d)
    let toRemove := sorted.take (sorted.length - maxCount)
    let keep := sorted.drop (sorted.length - maxCount)
    let d2 := toRemove.foldl removeEntry d
    cleanupHistoriesByCount s key maxCount =
      (.ok (), { s with hist := setF s.hist key d2 }) ∧
    keep.length = maxCount ∧
    (entryKeys d2).Perm (keep.map (fun e => (e.path, e.version))) ∧
    (∀ r ∈ toRemove, ∀ k2 ∈ keep, strLe r.version k2.version = true ∧ r.version ≠ k2.version) ∧
    (∀ r ∈ toRemove, readFileAt d2 r.path = none ∧
      (r.hasMeta = true → readFileAt d2 (r.path ++ ".meta") = none)) := by
  intro sorted toRemove keep d2
  have hperm : sorted.Perm (histEntries d) := List.perm_insertionSort verLe _
  have hlensorted : sorted.length = (histEntries d).length := hperm.length_eq
  have hmle : maxCount ≤ sorted.length := by
    rw [hlensorted]
    exact Nat.le_of_lt hlen
  have hnle : ¬(sorted.length ≤ maxCount) := by
    rw [hlensorted]
    exact Nat.not_le.mpr hlen
  have hsub : ∀ e ∈ toRemove, e ∈ histEntries d :=
    fun e he => hperm.subset (List.mem_of_mem_take he)
  have hsubk : ∀ e ∈ keep, e ∈ histEntries d :=
    fun e he => hperm.subset (List.mem_of_mem_drop he)
  have hgood : ∀ e ∈ toRemove, goodEntry e :=
    fun e he => histEntries_good hwf e (hsub e he)
  have hgoodk : ∀ e ∈ keep, goodEntry e :=
    fun e he => histEntries_good hwf e (hsubk e he)
  have hvnodup : ((toRemove ++ keep).map (fun e => e.version)).Nodup := by
    have : toRemove ++ keep = sorted := List.take_append_drop _ sorted
    rw [this]
    exact ((hperm.map (fun e => e.version)).nodup_iff).mpr hvers
  have hdisj : List.Disjoint (toRemove.map (fun e => e.version))
      (keep.map (fun e => e.version)) := by
    rw [List.map_append] at hvnodup
    exact List.disjoint_of_nodup_append hvnodup
  refine ⟨?_, ?_, ?_, ?_, ?_⟩
  · simp only [cleanupHistoriesByCount, hk, hd, if_neg hnle]
  · rw [List.length_drop]
    exact Nat.sub_sub_self hmle
  · have hkeys := foldl_removeEntry_keys toRemove d hwf hgood
    have hperm2 : (entryKeys d).Perm (sorted.map (fun e => (e.path, e.version))) := by
      unfold entryKeys
      exact (hperm.map (fun e => (e.path, e.version))).symm
    have hsplit : sorted.map (fun e => (e.path, e.version)) =
        toRemove.map (fun e => (e.path, e.version)) ++ keep.map (fun e => (e.path, e.version)) := by
      rw [← List.map_append, List.take_append_drop]
    have hpermf := hperm2.filter
      (fun x => (toRemove.map (fun e => e.path)).all (fun q => x.1 != q))
    rw [hkeys]
    refine hpermf.trans ?_
    rw [hsplit, List.filter_append]
    have hrem : (toRemove.map (fun e => (e.path, e.version))).filter
        (fun x => (toRemove.map (fun e => e.path)).all (fun q => x.1 != q)) = [] := by
      rw [List.filter_eq_nil_iff]
      intro x hxm
      rcases List.mem_map.mp hxm with ⟨r, hr, rfl⟩
      intro hall
      have := List.all_eq_true.mp hall r.path (List.mem_map_of_mem (fun e => e.path) hr)
      rw [bne_self_eq_false] at this
      exact absurd this (by decide)
    have hkeep : (keep.map (fun e => (e.path, e.version))).filter
        (fun x => (toRemove.map (fun e => e.path)).all (fun q => x.1 != q)) =
        keep.map (fun e => (e.path, e.version)) := by
      apply List.filter_eq_self.mpr
      intro x hxm
      rcases List.mem_map.mp hxm with ⟨k2, hk2, rfl⟩
      apply List.all_eq_true.mpr
      intro q hq
      rcases List.mem_map.mp hq with ⟨r, hr, rfl⟩
      refine bne_iff_ne.mpr ?_
      intro hpe
      have hveq : r.version = k2.version :=
        goodEntry_path_inj (hgood r hr) (hgoodk k2 hk2) hpe.symm
      exact hdisj (List.mem_map_of_mem (fun e => e.version) hr)
        (hveq ▸ List.mem_map_of_mem (fun e => e.version) hk2)
    rw [hrem, hkeep, List.nil_append]
  · have hsorted : List.Pairwise verLe sorted := insertionSort_verLe_sorted _
    have hsplit2 : toRemove ++ keep = sorted := List.take_append_drop _ sorted
    rw [← hsplit2] at hsorted
    have hle := (List.pairwise_append.mp hsorted).2.2
    intro r hr k2 hk2
    refine ⟨hle r hr k2 hk2, ?_⟩
    intro hveq
    exact hdisj (List.mem_map_of_mem (fun e => e.version) hr)
      (hveq ▸ List.mem_map_of_mem (fun e => e.version) hk2)
  · intro r hr
    rcases List.append_of_mem hr with ⟨l1, l2, hsp⟩
    have hd2 : d2 = l2.foldl removeEntry (removeEntry (l1.foldl removeEntry d) r) := by
      show toRemove.foldl removeEntry d = _
      rw [hsp, List.foldl_append, List.foldl_cons]
    constructor
    · rw [hd2]
      exact readFileAt_foldl_removeEntry_none l2 _
        (readFileAt_removeEntry_self (l1.foldl removeEntry d) r)
    · intro hm
      rw [hd2]
      exact readFileAt_foldl_removeEntry_none l2 _
        (readFileAt_removeEntry_meta (l1.foldl removeEntry d) r hm)

/-- C4 (witness): the amended theorem applied to the two-snapshot store of
the counterexample, every hypothesis discharged by computation. -/
theorem c4_cleanup_count_keeps_latest_witness :
    validateKey "k" = none ∧
    lookupF [("k", HistDir.mk [("10", "a"), ("9", "b")] [])] "k" =
      some (HistDir.mk [("10", "a"), ("9", "b")] []) ∧
    wfHistDir ⟨[("10", "a"), ("9", "b")], []⟩ ∧
    ((histEntries (HistDir.mk [("10", "a"), ("9", "b")] [])).map (fun e => e.version)).Nodup ∧
    1 < (histEntries (HistDir.mk [("10", "a"), ("9", "b")] [])).length ∧
    (let sorted := List.insertionSort verLe (histEntries (HistDir.mk [("10", "a"), ("9", "b")] []))
     let toRemove := sorted.take (sorted.length - 1)
     let keep := sorted.drop (sorted.length - 1)
     let d2 := toRemove.foldl removeEntry (HistDir.mk [("10", "a"), ("9", "b")] [])
     cleanupHistoriesByCount (Store.mk [("k", "x")] [("k", HistDir.mk [("10", "a"), ("9", "b")] [])]) "k" 1 =
       (.ok (), { Store.mk [("k", "x")] [("k", HistDir.mk [("10", "a"), ("9", "b")] [])] with
          hist := setF [("k", HistDir.mk [("10", "a"), ("9", "b")] [])] "k" d2 }) ∧
     keep.length = 1 ∧
     (entryKeys d2).Perm (keep.map (fun e => (e.path, e.version))) ∧
     (∀ r ∈ toRemove, ∀ k2 ∈ keep, strLe r.version k2.version = true ∧ r.version ≠ k2.version) ∧
     (∀ r ∈ toRemove, readFileAt d2 r.path = none ∧
       (r.hasMeta = true → readFileAt d2 (r.path ++ ".meta") = none))) :=
  ⟨by decide, by decide, by unfold wfHistDir; decide, by decide, by decide,
    c4_cleanup_count_keeps_latest (Store.mk [("k", "x")] [("k", HistDir.mk [("10", "a"), ("9", "b")] [])]) "k" 1
      (HistDir.mk [("10", "a"), ("9", "b")] []) (by decide) (by decide)
      (by unfold wfHistDir; decide) (by decide) (by decide)⟩

/-- C4 (counterexample): `CleanupHistoriesByCount` orders version names as
strings, so with snapshots named "10" and "9" and max count 1 it keeps "9"
and deletes "10", even though both names parse and 10 is the numerically
newest timestamp — refuting the claim that the survivors are the newest by
numeric timestamp order. -/
theorem c4_counterexample :
    cleanupHistoriesByCount ⟨[("k", "x")], [("k", ⟨[("10", "a"), ("9", "b")], []⟩)]⟩ "k" 1 =
      (.ok (), ⟨[("k", "x")], [("k", ⟨[("9", "b")], []⟩)]⟩) ∧
    goParseInt "9" = some 9 ∧ goParseInt "10" = some 10 ∧ (9 : Int) < 10 ∧
    strLt "10" "9" = true :=
  ⟨by decide, by decide, by decide, by decide, by decide⟩


theorem mem_snapNames {files : List (String × Value)} {x : String}
    (hx : x ∈ snapNames files) : isSnapName x = true := by
  unfold snapNames at hx
  rcases List.mem_map.mp hx with ⟨f, hf, rfl⟩
  exact (List.mem_filter.mp hf).2

theorem mem_fst_of_mem_snapNames {files : List (String × Value)} {x : String}
    (hx : x ∈ snapNames files) : x ∈ files.map (fun f => f.1) := by
  unfold snapNames at hx
  rcases List.mem_map.mp hx with ⟨f, hf, rfl⟩
  exact List.mem_map_of_mem (fun f => f.1) (List.mem_filter.mp hf).1

theorem snapNames_append (a b : List (String × Value)) :
    snapNames (a ++ b) = snapNames a ++ snapNames b := by
  unfold snapNames
  rw [List.filter_append, List.map_append]

theorem snapNames_removeF (files : List (String × Value)) (nm : String) :
    snapNames (removeF files nm) = (snapNames files).filter (fun x => x != nm) := by
  unfold snapNames
  rw [filter_isSnap_removeF, map_filter_exchange]

theorem lookupF_isSome_of_mem_fst {α : Type} {m : List (String × α)} {k : String}
    (h : k ∈ m.map (fun p => p.1)) : (lookupF m k).isSome = true := by
  induction m with
  | nil => cases h
  | cons p rest ih =>
    obtain ⟨a, b⟩ := p
    by_cases ha : a = k
    · rw [lookupF, if_pos ha]
      rfl
    · rw [lookupF, if_neg ha]
      rcases List.mem_cons.mp h with he | hm
      · exact absurd he.symm ha
      · exact ih hm

theorem isSnapName_append_meta (v : String) : isSnapName (v ++ ".meta") = false := by
  unfold isSnapName
  rw [strHasSuf_append_self]
  simp

theorem ne_meta_of_snap {x v : String} (hx : isSnapName x = true) : x ≠ v ++ ".meta" := by
  intro he
  have h1 := isSnapName_not_meta hx
  rw [he, strHasSuf_append_self] at h1
  exact absurd h1 (by decide)

theorem strHasPre_append_self (pre s : String) : strHasPre (pre ++ s) pre = true := by
  unfold strHasPre
  rw [List.isPrefixOf_iff_prefix]
  have : (pre ++ s).data = pre.data ++ s.data := rfl
  rw [this]
  exact List.prefix_append _ _

theorem pre_append_cancel {pre a b : String} (h : pre ++ a = pre ++ b) : a = b := by
  have hd : pre.data ++ a.data = pre.data ++ b.data := congrArg String.data h
  have := List.append_cancel_left hd
  cases a with
  | mk da =>
    cases b with
    | mk db => exact congrArg String.mk this

theorem insertionSort_strLe_sorted (l : List String) :
    List.Pairwise (fun a b : String => strLe a b = true)
      (List.insertionSort (fun a b : String => strLe a b = true) l) := by
  haveI htot : IsTotal String (fun a b : String => strLe a b = true) :=
    ⟨fun a b => strLe_total a b⟩
  haveI htr : IsTrans String (fun a b : String => strLe a b = true) :=
    ⟨fun a b c h1 h2 => strLe_trans a b c h1 h2⟩
  exact List.sorted_insertionSort _ l

theorem snapNames_single_snap {n : String} (c : Value) (hsnap : isSnapName n = true) :
    snapNames [(n, c)] = [n] := by
  simp [snapNames, List.filter_cons, hsnap]

theorem snapNames_single_meta (v : String) (c : Value) :
    snapNames [(v ++ ".meta", c)] = [] := by
  simp [snapNames, List.filter_cons, isSnapName_append_meta]

theorem moveOne_step (metas : List String) (d : HistDir) (page : List (String × Value))
    (n : String) (c : Value) (hsnap : isSnapName n = true)
    (hlk : lookupF d.files n = some c) :
    (moveOne metas (d, page) n).1.subdirs = d.subdirs ∧
    snapNames (moveOne metas (d, page) n).1.files =
      (snapNames d.files).filter (fun x => x != n) ∧
    snapNames (moveOne metas (d, page) n).2 = snapNames page ++ [n] ∧
    (∀ x, isSnapName x = true → x ≠ n →
      lookupF (moveOne metas (d, page) n).1.files x = lookupF d.files x) := by
  have hfilt : ∀ m : List (String × Value),
      (snapNames (removeF m n)).filter (fun x => x != n ++ ".meta") =
        snapNames (removeF m n) := by
    intro m
    apply List.filter_eq_self.mpr
    intro x hx
    exact bne_iff_ne.mpr (ne_meta_of_snap (mem_snapNames hx))
  simp only [moveOne, hlk]
  by_cases hc : metas.contains n = true
  · rw [if_pos hc]
    cases hlk2 : lookupF (removeF d.files n) (n ++ ".meta") with
    | none =>
      refine ⟨rfl, ?_, ?_, ?_⟩
      · exact snapNames_removeF d.files n
      · rw [snapNames_append, snapNames_single_snap c hsnap]
      · intro x hxs hxn
        exact lookupF_removeF_ne d.files hxn
    | some cm =>
      refine ⟨rfl, ?_, ?_, ?_⟩
      · rw [snapNames_removeF (removeF d.files n) (n ++ ".meta"), snapNames_removeF,
          ← snapNames_removeF d.files n, hfilt d.files, snapNames_removeF]
      · rw [snapNames_append, snapNames_append, snapNames_single_snap c hsnap,
          snapNames_single_meta n cm, List.append_nil]
      · intro x hxs hxn
        rw [lookupF_removeF_ne (removeF d.files n) (ne_meta_of_snap hxs),
          lookupF_removeF_ne d.files hxn]
  · rw [if_neg hc]
    refine ⟨rfl, ?_, ?_, ?_⟩
    · exact snapNames_removeF d.files n
    · rw [snapNames_append, snapNames_single_snap c hsnap]
    · intro x hxs hxn
      exact lookupF_removeF_ne d.files hxn

theorem moveOne_foldl (metas : List String) (grp : List String) (d : HistDir)
    (page : List (String × Value))
    (hpres : ∀ n ∈ grp, (lookupF d.files n).isSome = true)
    (hnd : grp.Nodup)
    (hsnap : ∀ n ∈ grp, isSnapName n = true) :
    (grp.foldl (moveOne metas) (d, page)).1.subdirs = d.subdirs ∧
    snapNames (grp.foldl (moveOne metas) (d, page)).1.files =
      (snapNames d.files).filter (fun x => grp.all (fun q => x != q)) ∧
    snapNames (grp.foldl (moveOne metas) (d, page)).2 = snapNames page ++ grp ∧
    (∀ x, isSnapName x = true → x ∉ grp →
      lookupF (grp.foldl (moveOne metas) (d, page)).1.files x = lookupF d.files x) := by
  induction grp generalizing d page with
  | nil =>
    refine ⟨rfl, ?_, by simp, fun x _ _ => rfl⟩
    symm
    apply List.filter_eq_self.mpr
    intro x _
    rfl
  | cons n grp ih =>
    have hsn : isSnapName n = true := hsnap n (List.mem_cons_self _ _)
    rcases Option.isSome_iff_exists.mp (hpres n (List.mem_cons_self _ _)) with ⟨c, hlk⟩
    obtain ⟨hsub1, hsnapf1, hpage1, hpres1⟩ := moveOne_step metas d page n c hsn hlk
    have hnotin : n ∉ grp := (List.nodup_cons.mp hnd).1
    have hpres2 : ∀ m ∈ grp, (lookupF (moveOne metas (d, page) n).1.files m).isSome = true := by
      intro m hm
      rw [hpres1 m (hsnap m (List.mem_cons_of_mem _ hm))
        (fun he => hnotin (he ▸ hm))]
      exact hpres m (List.mem_cons_of_mem _ hm)
    obtain ⟨ihsub, ihsnap, ihpage, ihpres⟩ :=
      ih (moveOne metas (d, page) n).1 (moveOne metas (d, page) n).2 hpres2
        (List.nodup_cons.mp hnd).2 (fun m hm => hsnap m (List.mem_cons_of_mem _ hm))
    rw [List.foldl_cons]
    refine ⟨?_, ?_, ?_, ?_⟩
    · rw [ihsub, hsub1]
    · rw [ihsnap, hsnapf1, List.filter_filter]
      apply List.filter_congr
      intro x hx
      rw [List.all_cons, Bool.and_comm]
    · rw [ihpage, hpage1, List.append_assoc]
      rfl
    · intro x hxs hxn
      rw [ihpres x hxs (fun hm => hxn (List.mem_cons_of_mem _ hm)),
        hpres1 x hxs (fun he => hxn (he ▸ List.mem_cons_self _ _))]

theorem moveGroup_spec (metas : List String) (d : HistDir) (first : String)
    (rest : List String)
    (hpres : ∀ n ∈ first :: rest, (lookupF d.files n).isSome = true)
    (hnd : (first :: rest).Nodup)
    (hsnap : ∀ n ∈ first :: rest, isSnapName n = true)
    (hlkp : lookupF d.subdirs ("p_" ++ first) = none) :
    snapNames (moveGroup metas d (first :: rest)).files =
      (snapNames d.files).filter (fun x => (first :: rest).all (fun q => x != q)) ∧
    (∀ x, isSnapName x = true → x ∉ first :: rest →
      lookupF (moveGroup metas d (first :: rest)).files x = lookupF d.files x) ∧
    ∃ pg, (moveGroup metas d (first :: rest)).subdirs = setF d.subdirs ("p_" ++ first) pg ∧
      snapNames pg = first :: rest := by
  obtain ⟨hsub, hsnapf, hpage, hpresf⟩ :=
    moveOne_foldl metas (first :: rest) d [] hpres hnd hsnap
  simp only [moveGroup, hlkp, Option.getD_none]
  refine ⟨hsnapf, hpresf, ⟨((first :: rest).foldl (moveOne metas) (d, [])).2, ?_, ?_⟩⟩
  · rw [hsub]
  · rw [hpage]
    rfl

theorem organizeLoop_spec (metas : List String) (fuel : Nat) (d : HistDir) (rem : List String)
    (hfuel : rem.length ≤ fuel)
    (hpres : ∀ n ∈ rem, (lookupF d.files n).isSome = true)
    (hnd : rem.Nodup)
    (hsnap : ∀ n ∈ rem, isSnapName n = true)
    (hfresh : ∀ n ∈ rem, lookupF d.subdirs ("p_" ++ n) = none) :
    snapNames (organizeLoop metas fuel d rem).files =
      (snapNames d.files).filter
        (fun x => (rem.take (maxHistoryCount * (rem.length / maxHistoryCount))).all
          (fun q => x != q)) ∧
    (∀ q ∈ (organizeLoop metas fuel d rem).subdirs, q ∈ d.subdirs ∨
      (strHasPre q.1 "p_" = true ∧ (snapNames q.2).length = maxHistoryCount)) := by
  induction fuel generalizing d rem with
  | zero =>
    have hre : rem = [] := List.length_eq_zero.mp (Nat.le_zero.mp hfuel)
    subst hre
    simp only [organizeLoop]
    refine ⟨?_, fun q hq => Or.inl hq⟩
    symm
    apply List.filter_eq_self.mpr
    intro x _
    rfl
  | succ fuel ih =>
    simp only [organizeLoop]
    by_cases hge : maxHistoryCount ≤ rem.length
    · rw [if_pos hge]
      cases hgc : rem.take maxHistoryCount with
      | nil =>
        exfalso
        have hlt : (rem.take maxHistoryCount).length = maxHistoryCount := by
          rw [List.length_take]
          exact Nat.min_eq_left hge
        rw [hgc] at hlt
        exact absurd hlt.symm (by decide)
      | cons first rest =>
        have hgrp_sub : ∀ n ∈ first :: rest, n ∈ rem :=
          fun n h => List.mem_of_mem_take (hgc ▸ h : n ∈ rem.take maxHistoryCount)
        have hdisj : List.Disjoint (rem.take maxHistoryCount) (rem.drop maxHistoryCount) := by
          have hta := List.take_append_drop maxHistoryCount rem
          have hnd2 : (rem.take maxHistoryCount ++ rem.drop maxHistoryCount).Nodup := by
            rw [hta]
            exact hnd
          exact List.disjoint_of_nodup_append hnd2
        have hndg : (first :: rest).Nodup := by
          rw [← hgc]
          exact hnd.sublist (List.take_sublist _ _)
        have hsng : ∀ n ∈ first :: rest, isSnapName n = true :=
          fun n h => hsnap n (hgrp_sub n h)
        have hprg : ∀ n ∈ first :: rest, (lookupF d.files n).isSome = true :=
          fun n h => hpres n (hgrp_sub n h)
        have hlkp : lookupF d.subdirs ("p_" ++ first) = none :=
          hfresh first (hgrp_sub first (List.mem_cons_self _ _))
        obtain ⟨hS1, hL1, pg, hsub1, hpg⟩ := moveGroup_spec metas d first rest hprg hndg hsng hlkp
        have hfuel1 : (rem.drop maxHistoryCount).length ≤ fuel := by
          rw [List.length_drop]
          apply Nat.sub_le_iff_le_add.mpr
          calc rem.length ≤ fuel + 1 := hfuel
          _ ≤ fuel + maxHistoryCount := Nat.add_le_add_left (by decide) fuel
        have hpres1 : ∀ n ∈ rem.drop maxHistoryCount,
            (lookupF (moveGroup metas d (first :: rest)).files n).isSome = true := by
          intro n hn
          rw [hL1 n (hsnap n (List.mem_of_mem_drop hn))
            (fun hmem => hdisj (hgc ▸ hmem) hn)]
          exact hpres n (List.mem_of_mem_drop hn)
        have hnd1 : (rem.drop maxHistoryCount).Nodup := hnd.sublist (List.drop_sublist _ _)
        have hsnap1 : ∀ n ∈ rem.drop maxHistoryCount, isSnapName n = true :=
          fun n hn => hsnap n (List.mem_of_mem_drop hn)
        have hfresh1 : ∀ n ∈ rem.drop maxHistoryCount,
            lookupF (moveGroup metas d (first :: rest)).subdirs ("p_" ++ n) = none := by
          intro n hn
          rw [hsub1]
          have hnef : ("p_" ++ n) ≠ ("p_" ++ first) := by
            intro he
            have hnf : n = first := pre_append_cancel he
            subst hnf
            exact hdisj (hgc ▸ List.mem_cons_self n rest) hn
          rw [lookupF_setF_ne _ pg hnef]
          exact hfresh n (List.mem_of_mem_drop hn)
        obtain ⟨ihA, ihB⟩ := ih (moveGroup metas d (first :: rest))
          (rem.drop maxHistoryCount) hfuel1 hpres1 hnd1 hsnap1 hfresh1
        constructor
        · rw [ihA, hS1, List.filter_filter]
          apply List.filter_congr
          intro x hx
          have hk : maxHistoryCount * (rem.length / maxHistoryCount) =
              maxHistoryCount + maxHistoryCount *
                ((rem.drop maxHistoryCount).length / maxHistoryCount) := by
            rw [List.length_drop,
              Nat.div_eq_sub_div (by decide : 0 < maxHistoryCount) hge,
              Nat.mul_add, Nat.mul_one, Nat.add_comm]
          rw [hk, List.take_add, hgc, List.all_append, Bool.and_comm]
        · intro q hq
          rcases ihB q hq with hmem | hgood
          · rw [hsub1] at hmem
            rcases mem_setF q hmem with hmem2 | heq
            · exact Or.inl hmem2
            · subst heq
              refine Or.inr ⟨strHasPre_append_self "p_" first, ?_⟩
              rw [hpg]
              have : (first :: rest).length = maxHistoryCount := by
                rw [← hgc, List.length_take]
                exact Nat.min_eq_left hge
              exact this
          · exact Or.inr hgood
    · rw [if_neg hge]
      have hz : rem.length / maxHistoryCount = 0 :=
        Nat.div_eq_of_lt (Nat.not_le.mp hge)
      rw [hz, Nat.mul_zero, List.take_zero]
      refine ⟨?_, fun q hq => Or.inl hq⟩
      symm
      apply List.filter_eq_self.mpr
      intro x _
      rfl

theorem filter_not_in_take (l : List String) (k : Nat) (hnd : l.Nodup) :
    l.filter (fun x => (l.take k).all (fun q => x != q)) = l.drop k := by
  have hnd2 : (l.take k ++ l.drop k).Nodup := by
    rw [List.take_append_drop]
    exact hnd
  have hdisj := List.disjoint_of_nodup_append hnd2
  have h1 : (l.take k).filter (fun x => (l.take k).all (fun q => x != q)) = [] := by
    rw [List.filter_eq_nil_iff]
    intro x hx hall
    have := List.all_eq_true.mp hall x hx
    simp at this
  have h2 : (l.drop k).filter (fun x => (l.take k).all (fun q => x != q)) = l.drop k := by
    apply List.filter_eq_self.mpr
    intro x hx
    apply List.all_eq_true.mpr
    intro q hq
    exact bne_iff_ne.mpr (fun he => hdisj (he ▸ hq) hx)
  have hsplit : l.filter (fun x => (l.take k).all (fun q => x != q)) =
      (l.take k).filter (fun x => (l.take k).all (fun q => x != q)) ++
      (l.drop k).filter (fun x => (l.take k).all (fun q => x != q)) := by
    rw [← List.filter_append, List.take_append_drop]
  rw [hsplit, h1, h2, List.nil_append]

theorem organize_aux (d : HistDir) (hsub : d.subdirs = [])
    (hnd2 : (snapNames d.files).Nodup)
    (sorted : List String)
    (hperm : sorted.Perm (snapNames d.files))
    (hsort : List.Pairwise (fun a b : String => strLe a b = true) sorted)
    (organizing : List String)
    (horg : organizing = if 1 < sorted.length then sorted.dropLast else sorted)
    (fuel : Nat) (hfuel : organizing.length ≤ fuel) :
    (snapNames (organizeLoop (metaNames d.files) fuel d organizing).files).length ≤
      maxHistoryCount ∧
    (∀ q ∈ (organizeLoop (metaNames d.files) fuel d organizing).subdirs,
      strHasPre q.1 "p_" = true ∧ (snapNames q.2).length = maxHistoryCount) ∧
    (∀ m ∈ snapNames d.files, (∀ x ∈ snapNames d.files, strLe x m = true) →
      m ∈ snapNames (organizeLoop (metaNames d.files) fuel d organizing).files) := by
  have hsortnd : sorted.Nodup := (hperm.nodup_iff).mpr hnd2
  have horgsub : List.Sublist organizing sorted := by
    by_cases hM : 1 < sorted.length
    · rw [horg, if_pos hM]
      exact List.dropLast_sublist sorted
    · rw [horg, if_neg hM]
  have horgnd : organizing.Nodup := hsortnd.sublist horgsub
  have hmemS : ∀ n ∈ organizing, n ∈ snapNames d.files :=
    fun n hn => hperm.subset (horgsub.subset hn)
  have hpres : ∀ n ∈ organizing, (lookupF d.files n).isSome = true :=
    fun n hn => lookupF_isSome_of_mem_fst (mem_fst_of_mem_snapNames (hmemS n hn))
  have hsnap : ∀ n ∈ organizing, isSnapName n = true :=
    fun n hn => mem_snapNames (hmemS n hn)
  have hfresh : ∀ n ∈ organizing, lookupF d.subdirs ("p_" ++ n) = none := by
    intro n _
    rw [hsub]
    rfl
  obtain ⟨hA, hB⟩ := organizeLoop_spec (metaNames d.files) fuel d organizing
    hfuel hpres horgnd hsnap hfresh
  have hKdef : organizing.length - maxHistoryCount * (organizing.length / maxHistoryCount) =
      organizing.length % maxHistoryCount := (Nat.mod_def organizing.length maxHistoryCount).symm
  have hmoved_sub : ∀ q ∈ organizing.take
      (maxHistoryCount * (organizing.length / maxHistoryCount)), q ∈ organizing :=
    fun q hq => List.mem_of_mem_take hq
  have hlenfilter :
      (snapNames (organizeLoop (metaNames d.files) fuel d organizing).files).length =
        (sorted.filter (fun x =>
          (organizing.take (maxHistoryCount * (organizing.length / maxHistoryCount))).all
            (fun q => x != q))).length := by
    rw [hA]
    exact ((hperm.symm).filter _).length_eq
  refine ⟨?_, ?_, ?_⟩
  · rw [hlenfilter]
    by_cases hM : 1 < sorted.length
    · have hne : sorted ≠ [] := by
        intro h
        rw [h] at hM
        exact absurd hM (by decide)
      have hlast : sorted.dropLast ++ [sorted.getLast hne] = sorted :=
        List.dropLast_append_getLast hne
      have horg2 : organizing = sorted.dropLast := by
        rw [horg, if_pos hM]
      have hndapp : (sorted.dropLast ++ [sorted.getLast hne]).Nodup := by
        rw [hlast]
        exact hsortnd
      have hdisjlast := List.disjoint_of_nodup_append hndapp
      have hfdrop : organizing.filter (fun x =>
          (organizing.take (maxHistoryCount * (organizing.length / maxHistoryCount))).all
            (fun q => x != q)) =
          organizing.drop (maxHistoryCount * (organizing.length / maxHistoryCount)) :=
        filter_not_in_take organizing _ horgnd
      have hflast : List.filter (fun x =>
          (organizing.take (maxHistoryCount * (organizing.length / maxHistoryCount))).all
            (fun q => x != q)) [sorted.getLast hne] = [sorted.getLast hne] := by
        have hplast : ((organizing.take
            (maxHistoryCount * (organizing.length / maxHistoryCount))).all
              (fun q => sorted.getLast hne != q)) = true := by
          apply List.all_eq_true.mpr
          intro q hq
          refine bne_iff_ne.mpr ?_
          intro he
          exact hdisjlast (horg2 ▸ hmoved_sub q hq : q ∈ sorted.dropLast)
            (he ▸ List.mem_cons_self _ _)
        simp [List.filter_cons, hplast]
      conv_lhs => rw [← hlast]
      rw [List.filter_append, hflast, ← horg2, hfdrop, List.length_append,
        List.length_drop, hKdef]
      have hmodlt : organizing.length % maxHistoryCount < maxHistoryCount :=
        Nat.mod_lt _ (by decide)
      have : organizing.length % maxHistoryCount + 1 ≤ maxHistoryCount := hmodlt
      simpa using this
    · have horg2 : organizing = sorted := by
        rw [horg, if_neg hM]
      have hlt : organizing.length < maxHistoryCount := by
        rw [horg2]
        have : sorted.length ≤ 1 := Nat.not_lt.mp hM
        exact Nat.lt_of_le_of_lt this (by decide)
      rw [Nat.div_eq_of_lt hlt, Nat.mul_zero, List.take_zero]
      have hid : sorted.filter (fun x => List.all [] (fun q => x != q)) = sorted :=
        List.filter_eq_self.mpr (fun x _ => rfl)
      rw [hid, ← horg2]
      exact Nat.le_of_lt hlt
  · intro q hq
    rcases hB q hq with hmem | hgood
    · rw [hsub] at hmem
      cases hmem
    · exact hgood
  · intro m hm hmax
    rw [hA]
    apply List.mem_filter.mpr
    refine ⟨hm, ?_⟩
    apply List.all_eq_true.mpr
    intro q hq
    refine bne_iff_ne.mpr ?_
    intro he
    subst he
    by_cases hM : 1 < sorted.length
    · have hne : sorted ≠ [] := by
        intro h
        rw [h] at hM
        exact absurd hM (by decide)
      have hlast : sorted.dropLast ++ [sorted.getLast hne] = sorted :=
        List.dropLast_append_getLast hne
      have horg2 : organizing = sorted.dropLast := by
        rw [horg, if_pos hM]
      have hmdrop : m ∈ sorted.dropLast := horg2 ▸ hmoved_sub m hq
      have hlastmem : sorted.getLast hne ∈ snapNames d.files :=
        hperm.subset (List.getLast_mem hne)
      have hle1 : strLe (sorted.getLast hne) m = true := hmax _ hlastmem
      have hsort2 : List.Pairwise (fun a b : String => strLe a b = true)
          (sorted.dropLast ++ [sorted.getLast hne]) := by
        rw [hlast]
        exact hsort
      have hle2 : strLe m (sorted.getLast hne) = true :=
        (List.pairwise_append.mp hsort2).2.2 m hmdrop _ (List.mem_cons_self _ _)
      have heq : m = sorted.getLast hne := strLe_antisymm _ _ hle2 hle1
      have hndapp : (sorted.dropLast ++ [sorted.getLast hne]).Nodup := by
        rw [hlast]
        exact hsortnd
      exact List.disjoint_of_nodup_append hndapp hmdrop
        (heq ▸ List.mem_cons_self _ _)
    · have horg2 : organizing = sorted := by
        rw [horg, if_neg hM]
      have hlt : organizing.length < maxHistoryCount := by
        rw [horg2]
        exact Nat.lt_of_le_of_lt (Nat.not_lt.mp hM) (by decide)
      rw [Nat.div_eq_of_lt hlt, Nat.mul_zero, List.take_zero] at hq
      cases hq

/-- C7 (amended): for a key whose history directory has not been paged yet
(no subdirectories) and whose file names are distinct, after
`organizeHistoriesIfNeeded` the default location holds at most 200
snapshots, every subdirectory of the result is a `p_`-named page holding
exactly 200 snapshots, and any snapshot name that is greatest in byte-wise
string order among the initial ones is still in the default location. -/
theorem c7_organize_default_and_pages (d : HistDir) (hsub : d.subdirs = [])
    (hnd : (d.files.map (fun f => f.1)).Nodup) :
    (snapNames (organizeHistoriesIfNeeded d).files).length ≤ maxHistoryCount ∧
    (∀ q ∈ (organizeHistoriesIfNeeded d).subdirs,
      strHasPre q.1 "p_" = true ∧ (snapNames q.2).length = maxHistoryCount) ∧
    (∀ m ∈ snapNames d.files, (∀ x ∈ snapNames d.files, strLe x m = true) →
      m ∈ snapNames (organizeHistoriesIfNeeded d).files) := by
  have hnd2 : (snapNames d.files).Nodup := by
    have hsubl : List.Sublist (snapNames d.files) (d.files.map (fun f => f.1)) := by
      unfold snapNames
      exact List.Sublist.map _ (List.filter_sublist _)
    exact hnd.sublist hsubl
  have hgoal : organizeHistoriesIfNeeded d = organizeLoop (metaNames d.files)
      ((if 1 < (List.insertionSort (fun a b : String => strLe a b = true)
            (snapNames d.files)).length
        then (List.insertionSort (fun a b : String => strLe a b = true)
            (snapNames d.files)).dropLast
        else (List.insertionSort (fun a b : String => strLe a b = true)
            (snapNames d.files))).length + 1)
      d
      (if 1 < (List.insertionSort (fun a b : String => strLe a b = true)
            (snapNames d.files)).length
        then (List.insertionSort (fun a b : String => strLe a b = true)
            (snapNames d.files)).dropLast
        else (List.insertionSort (fun a b : String => strLe a b = true)
            (snapNames d.files))) := rfl
  rw [hgoal]
  exact organize_aux d hsub hnd2 _ (List.perm_insertionSort _ _)
    (insertionSort_strLe_sorted _) _ rfl _ (Nat.le_succ _)

/-- C7 (counterexample): `organizeHistoriesIfNeeded` never looks inside
pre-existing page subdirectories, so `Fsck` on a history that already has a
page directory holding a single snapshot terminates with a `p_*` page of 1
snapshot file, not 200 — refuting the claim for arbitrary initial on-disk
states. -/
theorem c7_counterexample :
    fsckKeyHistory ⟨[("3", "c")], [("p_1", [("1", "a")])]⟩ "v" 5 =
      ⟨[("3", "c")], [("p_1", [("1", "a")])]⟩ ∧
    ("p_1", [("1", "a")]) ∈
      (fsckKeyHistory ⟨[("3", "c")], [("p_1", [("1", "a")])]⟩ "v" 5).subdirs ∧
    strHasPre "p_1" "p_" = true ∧
    (snapNames [("1", "a")]).length = 1 ∧ maxHistoryCount = 200 :=
  ⟨by decide, by decide, by decide, by decide, by decide⟩

/-- C7 (witness): the amended theorem applied to a two-snapshot unpaged
history directory. -/
theorem c7_organize_default_and_pages_witness :
    (HistDir.mk [("2", "a"), ("1", "b")] []).subdirs = [] ∧
    ((HistDir.mk [("2", "a"), ("1", "b")] []).files.map (fun f => f.1)).Nodup ∧
    ((snapNames (organizeHistoriesIfNeeded (HistDir.mk [("2", "a"), ("1", "b")] [])).files).length ≤
        maxHistoryCount ∧
      (∀ q ∈ (organizeHistoriesIfNeeded (HistDir.mk [("2", "a"), ("1", "b")] [])).subdirs,
        strHasPre q.1 "p_" = true ∧ (snapNames q.2).length = maxHistoryCount) ∧
      (∀ m ∈ snapNames (HistDir.mk [("2", "a"), ("1", "b")] []).files,
        (∀ x ∈ snapNames (HistDir.mk [("2", "a"), ("1", "b")] []).files, strLe x m = true) →
        m ∈ snapNames (organizeHistoriesIfNeeded (HistDir.mk [("2", "a"), ("1", "b")] [])).files)) :=
  ⟨rfl, by decide,
    c7_organize_default_and_pages (HistDir.mk [("2", "a"), ("1", "b")] []) rfl (by decide)⟩

end FileKV
